import Mathlib

/-!
Shallow embedding of the table-detection core of the pdfile repository
(`src/composables/useTableDetection.ts`), together with machine-checked
proofs of the specification claims.

Coordinates are modelled as rationals (`ℚ`); JavaScript `Math.round v`
is modelled as `⌊v + 1/2⌋` (round half toward positive infinity), which
agrees with the JavaScript semantics on all inputs.  JavaScript `Map`
iteration order is insertion order, modelled by association lists built
with `groupPush`.  JavaScript array mutation is modelled by explicit
state passing.
-/

/-- Snap tolerance for coordinate grouping (source constant `SNAP = 1.5`). -/
def SNAP : ℚ := 3/2

/-- Tolerance for intersection checks (source constant `INTERSECT_TOL = 3`). -/
def INTERSECT_TOL : ℚ := 3

/-- JavaScript `Math.round`: round half toward positive infinity. -/
def jsRound (q : ℚ) : ℤ := (q + 1/2).floor

/-- Source function `snap(v) = Math.round(v / SNAP) * SNAP`. -/
def snap (v : ℚ) : ℚ := (jsRound (v / SNAP) : ℚ) * SNAP

/-- The `ElementType` union type of `usePdf.ts`: `'text' | 'line' | 'rect'`. -/
inductive ElementType where
  | text
  | line
  | rect
deriving DecidableEq, Repr

/-- The `PdfElement` interface of `usePdf.ts` (geometry-relevant fields).
`str` is the optional text content. -/
structure PdfElement where
  id : String
  page : Nat
  type : ElementType
  str : Option String := none
  x : ℚ
  y : ℚ
  width : ℚ
  height : ℚ
deriving DecidableEq, Repr

/-- Orientation tag of a classified line: `'h' | 'v'` in the source. -/
inductive LineDir where
  | h
  | v
deriving DecidableEq, Repr

/-- The `ClassifiedLine` interface of `useTableDetection.ts`.  The source
field `end` is named `stop` here (`end` is a Lean keyword). -/
structure ClassifiedLine where
  el : PdfElement
  dir : LineDir
  pos : ℚ
  start : ℚ
  stop : ℚ
deriving DecidableEq, Repr

/-- A junk classified line, used only as the default of `List.getD` at
indices that are always in range in the source. -/
def noLine : ClassifiedLine :=
  ⟨⟨"", 0, ElementType.line, none, 0, 0, 0, 0⟩, LineDir.h, 0, 0, 0⟩

/-- Source function `classifyLines`: walks the element list, skipping
non-line/rect elements and dots, classifying the rest as horizontal,
vertical, or discarding them (diagonal / near-square). -/
def classifyLines : List PdfElement → List ClassifiedLine
  | [] => []
  | el :: rest =>
    if el.type = ElementType.line ∨ el.type = ElementType.rect then
      let w := |el.width|
      let h := |el.height|
      if w < 1/2 ∧ h < 1/2 then classifyLines rest
      else if h < 3 ∨ (5 < w ∧ 4 < w / h) then
        ⟨el, LineDir.h, snap (el.y + h / 2), el.x, el.x + w⟩ :: classifyLines rest
      else if w < 3 ∨ (5 < h ∧ 4 < h / w) then
        ⟨el, LineDir.v, snap (el.x + w / 2), el.y, el.y + h⟩ :: classifyLines rest
      else classifyLines rest
    else classifyLines rest

/-- Source function `intersects`: an H-line and a V-line intersect
within the fixed tolerance. -/
def intersects (hl vl : ClassifiedLine) : Prop :=
  (hl.start - INTERSECT_TOL ≤ vl.pos ∧ vl.pos ≤ hl.stop + INTERSECT_TOL) ∧
  (min vl.start vl.stop - INTERSECT_TOL ≤ hl.pos ∧ hl.pos ≤ max vl.start vl.stop + INTERSECT_TOL)

instance (hl vl : ClassifiedLine) : Decidable (intersects hl vl) := by
  unfold intersects; exact inferInstance

/-- The `UnionFind` class of the source: parent and rank arrays. -/
structure UnionFind where
  parent : List Nat
  rank : List Nat
deriving DecidableEq, Repr

/-- The `UnionFind` constructor: `parent[i] = i`, `rank[i] = 0`. -/
def UnionFind.ofSize (n : Nat) : UnionFind :=
  ⟨List.range n, List.replicate n 0⟩

/-- `find(x)` with path compression, with explicit fuel (the source
recursion terminates because parent chains are acyclic; fuel
`parent.length` always suffices, as proved below). -/
def UnionFind.findAux : Nat → UnionFind → Nat → Nat × UnionFind
  | 0, uf, x => (x, uf)
  | fuel + 1, uf, x =>
    let px := uf.parent.getD x x
    if px = x then (x, uf)
    else
      let r := (UnionFind.findAux fuel uf px).1
      let uf' := (UnionFind.findAux fuel uf px).2
      (r, { uf' with parent := uf'.parent.set x r })

/-- Source method `find`. -/
def UnionFind.find (uf : UnionFind) (x : Nat) : Nat × UnionFind :=
  UnionFind.findAux uf.parent.length uf x

/-- Source method `union` (union by rank). -/
def UnionFind.union (uf : UnionFind) (a b : Nat) : UnionFind :=
  let fa := uf.find a
  let fb := fa.2.find b
  let ra := fa.1
  let rb := fb.1
  let uf2 := fb.2
  if ra = rb then uf2
  else if uf2.rank.getD ra 0 < uf2.rank.getD rb 0 then
    { uf2 with parent := uf2.parent.set ra rb }
  else if uf2.rank.getD rb 0 < uf2.rank.getD ra 0 then
    { uf2 with parent := uf2.parent.set rb ra }
  else
    { uf2 with parent := uf2.parent.set rb ra,
               rank := uf2.rank.set ra (uf2.rank.getD ra 0 + 1) }

/-- The intersection double loop of `detectTables` (lines 149-155),
flattened to the list of index pairs that get unioned, in loop order:
`(hi, hOffset + hi)` runs outermost, `vi` innermost, and a pair is
emitted exactly when `intersects` holds. -/
def intersectPairs (hls vls : List ClassifiedLine) : List (Nat × Nat) :=
  (List.range hls.length).flatMap (fun hi =>
    (List.range vls.length).filterMap (fun vi =>
      if intersects (hls.getD hi noLine) (vls.getD vi noLine) then
        some (hi, hls.length + vi)
      else none))

/-- Folding the union calls of the intersection loop over the union-find. -/
def applyUnions (uf : UnionFind) (ps : List (Nat × Nat)) : UnionFind :=
  ps.foldl (fun acc p => acc.union p.1 p.2) uf

/-- Inner loop of the source `dedup`: `last` is the element most
recently pushed to the output. -/
def dedupGo (tol : ℚ) (last : ℚ) : List ℚ → List ℚ
  | [] => []
  | a :: rest =>
    if tol < a - last then a :: dedupGo tol a rest else dedupGo tol last rest

/-- Source function `dedup`: de-duplicate sorted numbers that are within
`tol` of each other (keeps an element only when it exceeds the last kept
element by more than `tol`). -/
def dedup (arr : List ℚ) (tol : ℚ) : List ℚ :=
  match arr with
  | [] => []
  | a :: rest => a :: dedupGo tol a rest

/-- Numeric ascending sort, modelling `.sort((a, b) => a - b)` (the
sorted list of rationals is unique, so the algorithm is immaterial). -/
def sortRat (l : List ℚ) : List ℚ :=
  l.insertionSort (fun a b => a ≤ b)

/-- `map.get(k).push(v)` with `map.set(k, [])` on first sight: append
`v` to the group of key `k`, creating the group at the end of the
association list if absent.  Models JavaScript `Map` insertion order. -/
def groupPush {κ α : Type} [DecidableEq κ] (k : κ) (v : α) :
    List (κ × List α) → List (κ × List α)
  | [] => [(k, [v])]
  | (k', vs) :: rest =>
    if k' = k then (k', vs ++ [v]) :: rest else (k', vs) :: groupPush k v rest

/-- Build a grouping map by pushing every element of `l` under its key. -/
def groupFold {κ α : Type} [DecidableEq κ] (key : α → κ) (l : List α) :
    List (κ × List α) :=
  l.foldl (fun acc v => groupPush (key v) v acc) []

/-- Look up a key's group in an association list (empty if absent). -/
def lookupGroup {κ α : Type} [DecidableEq κ] (k : κ) : List (κ × List α) → List α
  | [] => []
  | (k', vs) :: rest => if k' = k then vs else lookupGroup k rest

/-- The keys of a list in order of first appearance. -/
def firstAppearances {κ : Type} [DecidableEq κ] (l : List κ) : List κ :=
  l.foldl (fun acc k => if k ∈ acc then acc else acc ++ [k]) []

/-- The component-grouping loop of `detectTables` (lines 157-163):
group indices `0..n-1` by union-find root, in root discovery order,
threading the union-find state through the `find` calls. -/
def collectComponents (uf : UnionFind) (n : Nat) : List (Nat × List Nat) × UnionFind :=
  (List.range n).foldl
    (fun acc i =>
      let fr := acc.2.find i
      (groupPush fr.1 i acc.1, fr.2))
    ([], uf)

/-- The `TableCell` interface of the source. -/
structure TableCell where
  row : Nat
  col : Nat
  x : ℚ
  y : ℚ
  width : ℚ
  height : ℚ
  text : String
  textElementIds : List String
deriving DecidableEq, Repr

/-- The cell record pushed at row `r`, column `c` (lines 188-197). -/
def initCell (xs ys : List ℚ) (r c : Nat) : TableCell :=
  { row := r, col := c, x := xs.getD c 0, y := ys.getD r 0,
    width := xs.getD (c+1) 0 - xs.getD c 0,
    height := ys.getD (r+1) 0 - ys.getD r 0,
    text := "", textElementIds := [] }

/-- The cell-building double loop of `detectTables` (lines 184-200). -/
def buildCells (xs ys : List ℚ) : List (List TableCell) :=
  (List.range (ys.length - 1)).map (fun r =>
    (List.range (xs.length - 1)).map (fun c => initCell xs ys r c))

/-- The point-in-cell test of `detectTables` (lines 214-218): the text
midpoint lies in the cell rectangle extended by 1 unit on all sides,
with min/max normalisation on the y axis. -/
def matchCell (te : PdfElement) (cell : TableCell) : Prop :=
  (cell.x - 1 ≤ te.x + te.width / 2 ∧ te.x + te.width / 2 ≤ cell.x + cell.width + 1) ∧
  (min cell.y (cell.y + cell.height) - 1 ≤ te.y + te.height / 2 ∧
    te.y + te.height / 2 ≤ max cell.y (cell.y + cell.height) + 1)

instance (te : PdfElement) (cell : TableCell) : Decidable (matchCell te cell) := by
  unfold matchCell; exact inferInstance

/-- Modelled from the claim wording of C6 (spec section 4.5): the centroid of
`te` lies within `cell`'s rectangle extended by 1 unit on all four
sides, using min/max of the cell's y-extent.  Stated independently of
the source, for comparison with `matchCell`. -/
def specCentroidMatch (te : PdfElement) (cell : TableCell) : Prop :=
  cell.x - 1 ≤ te.x + te.width / 2 ∧ te.x + te.width / 2 ≤ cell.x + cell.width + 1 ∧
  min cell.y (cell.y + cell.height) - 1 ≤ te.y + te.height / 2 ∧
  te.y + te.height / 2 ≤ max cell.y (cell.y + cell.height) + 1

instance (te : PdfElement) (cell : TableCell) : Decidable (specCentroidMatch te cell) := by
  unfold specCentroidMatch; exact inferInstance

/-- The text-element filter of line 203: `e.type === 'text' && e.str`
(truthy `str`, i.e. present and non-empty). -/
def isTextEl (e : PdfElement) : Prop :=
  e.type = ElementType.text ∧ e.str.getD "" ≠ ""

instance (e : PdfElement) : Decidable (isTextEl e) := by
  unfold isTextEl; exact inferInstance

/-- The two mutations of lines 219-220: push the id, append the content
(with a separating space when the cell already has text). -/
def appendText (cell : TableCell) (te : PdfElement) : TableCell :=
  { cell with
    textElementIds := cell.textElementIds ++ [te.id],
    text := if cell.text ≠ "" then cell.text ++ " " ++ te.str.getD "" else te.str.getD "" }

/-- Effect of one text element on one cell (lines 218-221): append the
text's id and content exactly when the midpoint test succeeds. -/
def cellStep (cell : TableCell) (te : PdfElement) : TableCell :=
  if matchCell te cell then appendText cell te else cell

/-- One text element updates every cell it matches (inner loops of
lines 210-223). -/
def assignStep (cells : List (List TableCell)) (te : PdfElement) : List (List TableCell) :=
  cells.map (fun row => row.map (fun cell => cellStep cell te))

/-- The text-mapping loop of lines 204-224: each text element in order
is pushed into all matching cells. -/
def assignTexts (tes : List PdfElement) (cells : List (List TableCell)) :
    List (List TableCell) :=
  tes.foldl assignStep cells

/-- Table identifier: `` `table-p${page}-${tableIdx}` ``. -/
def tableId (page idx : Nat) : String :=
  "table-p" ++ toString page ++ "-" ++ toString idx

/-- The `DetectedTable` interface of the source. -/
structure DetectedTable where
  id : String
  page : Nat
  x : ℚ
  y : ℚ
  width : ℚ
  height : ℚ
  rows : Nat
  cols : Nat
  cells : List (List TableCell)
  lineIds : List String
deriving DecidableEq, Repr

/-- A component's horizontal members (line 168): indices below
`vOffset` looked up in the concatenated line list. -/
def compHOf (allLines : List ClassifiedLine) (vOffset : Nat) (members : List Nat) :
    List ClassifiedLine :=
  (members.filter (fun i => decide (i < vOffset))).map (fun i => allLines.getD i noLine)

/-- A component's vertical members (line 169). -/
def compVOf (allLines : List ClassifiedLine) (vOffset : Nat) (members : List Nat) :
    List ClassifiedLine :=
  (members.filter (fun i => decide (vOffset ≤ i))).map (fun i => allLines.getD i noLine)

/-- A component's deduplicated row coordinates (line 175). -/
def ysOf (allLines : List ClassifiedLine) (vOffset : Nat) (members : List Nat) : List ℚ :=
  dedup (sortRat ((compHOf allLines vOffset members).map (fun l => l.pos))) SNAP

/-- A component's deduplicated column coordinates (line 176). -/
def xsOf (allLines : List ClassifiedLine) (vOffset : Nat) (members : List Nat) : List ℚ :=
  dedup (sortRat ((compVOf allLines vOffset members).map (fun l => l.pos))) SNAP

/-- Per-component processing of `detectTables` (lines 167-240): filter
the component's members into horizontal/vertical lines, apply the
minimum-count guards, deduplicate grid coordinates, build and fill the
cell grid, and assemble the table record, or yield nothing. -/
def buildTable (page : Nat) (pageEls : List PdfElement) (allLines : List ClassifiedLine)
    (vOffset : Nat) (members : List Nat) (tableIdx : Nat) : Option DetectedTable :=
  let compH := compHOf allLines vOffset members
  let compV := compVOf allLines vOffset members
  if compH.length < 2 ∨ compV.length < 2 then none
  else
    let ys := ysOf allLines vOffset members
    let xs := xsOf allLines vOffset members
    if ys.length < 2 ∨ xs.length < 2 then none
    else
      let cells0 := buildCells xs ys
      let textEls := pageEls.filter (fun e => decide (isTextEl e))
      let cells := assignTexts textEls cells0
      let lineIds := (compH ++ compV).map (fun l => l.el.id)
      some { id := tableId page tableIdx, page := page,
             x := xs.getD 0 0, y := ys.getD 0 0,
             width := xs.getD (xs.length - 1) 0 - xs.getD 0 0,
             height := ys.getD (ys.length - 1) 0 - ys.getD 0 0,
             rows := ys.length - 1, cols := xs.length - 1,
             cells := cells, lineIds := lineIds }

/-- Horizontal classified lines of a page (line 138). -/
def hLinesOf (pageEls : List PdfElement) : List ClassifiedLine :=
  (classifyLines pageEls).filter (fun l => decide (l.dir = LineDir.h))

/-- Vertical classified lines of a page (line 139). -/
def vLinesOf (pageEls : List PdfElement) : List ClassifiedLine :=
  (classifyLines pageEls).filter (fun l => decide (l.dir = LineDir.v))

/-- One step of the per-page component loop: emit the component's table
(if any) and advance the per-page table index. -/
def emitStep (page : Nat) (pageEls : List PdfElement) (allLines : List ClassifiedLine)
    (vOffset : Nat) (acc : List DetectedTable × Nat) (g : Nat × List Nat) :
    List DetectedTable × Nat :=
  match buildTable page pageEls allLines vOffset g.2 acc.2 with
  | none => acc
  | some t => (acc.1 ++ [t], acc.2 + 1)

/-- Processing of one page group of `detectTables` (lines 136-242):
classify, apply the page-level guard, build the intersection graph,
collect components, and emit each component's table in order. -/
def processPage (page : Nat) (pageEls : List PdfElement) : List DetectedTable :=
  let hls := hLinesOf pageEls
  let vls := vLinesOf pageEls
  if hls.length < 2 ∨ vls.length < 2 then []
  else
    let allLines := hls ++ vls
    let uf := applyUnions (UnionFind.ofSize allLines.length) (intersectPairs hls vls)
    let comps := (collectComponents uf allLines.length).1
    (comps.foldl (emitStep page pageEls allLines hls.length) ([], 0)).1

/-- The page-grouping loop of lines 129-134 (JavaScript `Map` keyed by
page, in insertion order). -/
def groupByPage (els : List PdfElement) : List (Nat × List PdfElement) :=
  groupFold (fun e => e.page) els

/-- The exported `detectTables` function (lines 126-245). -/
def detectTables (els : List PdfElement) : List DetectedTable :=
  (groupByPage els).flatMap (fun g => processPage g.1 g.2)

/-! ### Definitions for the proofs: union-find semantics -/

/-- Fuel-indexed root chase along the parent pointers (no compression):
the semantic root function of a union-find state. -/
def rootN : Nat → List Nat → Nat → Nat
  | 0, _, x => x
  | fuel + 1, p, x =>
    if p.getD x x = x then x else rootN fuel p (p.getD x x)

/-- The root of `x` in `uf` (with canonical fuel `parent.length`). -/
def UnionFind.rt (uf : UnionFind) (x : Nat) : Nat :=
  rootN uf.parent.length uf.parent x

/-- Well-formedness of a union-find state: ranks and parents have the
same length, parents stay in range, and rank strictly increases along
non-trivial parent edges (hence parent chains are acyclic). -/
structure UFInv (uf : UnionFind) : Prop where
  len : uf.rank.length = uf.parent.length
  dom : ∀ x, x < uf.parent.length → uf.parent.getD x x < uf.parent.length
  rk : ∀ x, x < uf.parent.length → uf.parent.getD x x ≠ x →
    uf.rank.getD x 0 < uf.rank.getD (uf.parent.getD x x) 0

/-- Termination potential for the parent chase: the number of nodes
whose rank is not below `x`'s rank (it strictly decreases along parent
edges, and is at most `parent.length`). -/
def ufPhi (uf : UnionFind) (x : Nat) : Nat :=
  uf.parent.length -
    ((Finset.range uf.parent.length).filter
      (fun z => uf.rank.getD z 0 < uf.rank.getD x 0)).card

/-- The intersection relation on flat line indices of a page: `u` and
`v` are one of the unioned pairs of the intersection loop. -/
def interRel (hls vls : List ClassifiedLine) (u v : Nat) : Prop :=
  (u, v) ∈ intersectPairs hls vls

instance (hls vls : List ClassifiedLine) (u v : Nat) : Decidable (interRel hls vls u v) := by
  unfold interRel; exact inferInstance

/-! ### Definitions for the proofs: text concatenation -/

/-- Join a list of strings with single spaces (the wording of the spec:
content is appended to the cell text "joined by a single space"). -/
def joinSpace : List String → String
  | [] => ""
  | [s] => s
  | s :: rest => s ++ " " ++ joinSpace rest

/-- The text accumulator of the source fold: starting from current text
`t`, append each string, separating with a space when `t` is non-empty. -/
def joinFrom (t : String) : List String → String
  | [] => t
  | s :: rest => joinFrom (if t ≠ "" then t ++ " " ++ s else s) rest

/-! ### Spec-side classification (for the refinement claim C3) -/

/-- Modelled from the claim wording of C3 (spec section 4.1): discard dots
(`w < 0.5` and `h < 0.5`); classify horizontal iff `h < 3` or
(`w > 5` and `w/h > 4`); otherwise vertical iff `w < 3` or (`h > 5`
and `h/w > 4`); otherwise discard; `Text` is never classified. -/
def specClassify (el : PdfElement) : Option ClassifiedLine :=
  if el.type = ElementType.text then none
  else
    let w := |el.width|
    let h := |el.height|
    if w < 1/2 ∧ h < 1/2 then none
    else if h < 3 ∨ (5 < w ∧ 4 < w / h) then
      some ⟨el, LineDir.h, snap (el.y + h / 2), el.x, el.x + w⟩
    else if w < 3 ∨ (5 < h ∧ 4 < h / w) then
      some ⟨el, LineDir.v, snap (el.x + w / 2), el.y, el.y + h⟩
    else none

/-! ### Concrete inputs used by the concrete theorems -/

/-- Scenario A of the spec: two horizontal lines at `y = 0` and
`y = 100` spanning `x ∈ [0, 200]`, two vertical lines at `x = 0` and
`x = 200` spanning `y ∈ [0, 100]`, all on page 1. -/
def scenA : List PdfElement :=
  [ ⟨"h1", 1, ElementType.line, none, 0, 0, 200, 0⟩,
    ⟨"h2", 1, ElementType.line, none, 0, 100, 200, 0⟩,
    ⟨"v1", 1, ElementType.line, none, 0, 0, 0, 100⟩,
    ⟨"v2", 1, ElementType.line, none, 200, 0, 0, 100⟩ ]

/-- The table the code actually produces on Scenario A: the grid
coordinates are snapped to multiples of 1.5, so the snapped extents are
`[0, 399/2]` and `[0, 201/2]` rather than `[0, 200]` and `[0, 100]`. -/
def tableA : DetectedTable :=
  { id := "table-p1-0", page := 1, x := 0, y := 0, width := 399/2, height := 201/2,
    rows := 1, cols := 1,
    cells := [[{ row := 0, col := 0, x := 0, y := 0, width := 399/2, height := 201/2,
                 text := "", textElementIds := [] }]],
    lineIds := ["h1", "h2", "v1", "v2"] }

/-- Input whose pages first appear in the order 2, 1: a minimal 1x1
grid on page 2 listed before a minimal 1x1 grid on page 1 (all
coordinates multiples of 1.5, so snapping is the identity). -/
def exPages : List PdfElement :=
  [ ⟨"p2h1", 2, ElementType.line, none, 0, 0, 99, 0⟩,
    ⟨"p2h2", 2, ElementType.line, none, 0, 99, 99, 0⟩,
    ⟨"p2v1", 2, ElementType.line, none, 0, 0, 0, 99⟩,
    ⟨"p2v2", 2, ElementType.line, none, 99, 0, 0, 99⟩,
    ⟨"p1h1", 1, ElementType.line, none, 0, 0, 99, 0⟩,
    ⟨"p1h2", 1, ElementType.line, none, 0, 99, 99, 0⟩,
    ⟨"p1v1", 1, ElementType.line, none, 0, 0, 0, 99⟩,
    ⟨"p1v2", 1, ElementType.line, none, 99, 0, 0, 99⟩ ]

/-- A 1-row, 2-column grid (vertical lines at x = 0, 99, 198) with one
text element whose centroid (99, 25.5) lies exactly on the interior
grid line at x = 99, hence within 1 unit of both adjacent cells. -/
def exBoundary : List PdfElement :=
  [ ⟨"h1", 1, ElementType.line, none, 0, 0, 198, 0⟩,
    ⟨"h2", 1, ElementType.line, none, 0, 51, 198, 0⟩,
    ⟨"v1", 1, ElementType.line, none, 0, 0, 0, 51⟩,
    ⟨"v2", 1, ElementType.line, none, 99, 0, 0, 51⟩,
    ⟨"v3", 1, ElementType.line, none, 198, 0, 0, 51⟩,
    ⟨"t1", 1, ElementType.text, some "boundary", 99, 51/2, 0, 0⟩ ]

/-- A zero-area dot primitive (both dimensions below 0.5). -/
def dotEl : PdfElement := ⟨"dot", 1, ElementType.rect, none, 5, 5, 1/4, 1/4⟩

/-- A text primitive with empty content. -/
def emptyTextEl : PdfElement := ⟨"et", 1, ElementType.text, some "", 5, 5, 10, 10⟩

/-- Scenario A plus a single stray line on page 5 (page 5 then has one
horizontal and no vertical classified line, failing the threshold). -/
def exStray : List PdfElement :=
  scenA ++ [⟨"stray", 5, ElementType.line, none, 0, 0, 50, 0⟩]

/-- A junk cell, used only as the default of `List.getD` at indices
that are always in range. -/
def dummyCell : TableCell :=
  { row := 0, col := 0, x := 0, y := 0, width := 0, height := 0,
    text := "", textElementIds := [] }

/-- The table the code produces on `exBoundary`: the boundary text is
recorded in both adjacent cells. -/
def tableB : DetectedTable :=
  { id := "table-p1-0", page := 1, x := 0, y := 0, width := 198, height := 51,
    rows := 1, cols := 2,
    cells := [[{ row := 0, col := 0, x := 0, y := 0, width := 99, height := 51,
                 text := "boundary", textElementIds := ["t1"] },
               { row := 0, col := 1, x := 99, y := 0, width := 99, height := 51,
                 text := "boundary", textElementIds := ["t1"] }]],
    lineIds := ["h1", "h2", "v1", "v2", "v3"] }

/-! ## Basic list lemmas -/

theorem getD_set_self {l : List Nat} {i : Nat} (h : i < l.length) (a d : Nat) :
    (l.set i a).getD i d = a := by
  induction l generalizing i with
  | nil => simp at h
  | cons x xs ih =>
    cases i with
    | zero => rfl
    | succ j =>
      have hj : j < xs.length := by simpa using h
      simpa using ih hj

theorem getD_set_ne {l : List Nat} {i j : Nat} (h : i ≠ j) (a d : Nat) :
    (l.set i a).getD j d = l.getD j d := by
  induction l generalizing i j with
  | nil => rfl
  | cons x xs ih =>
    cases i with
    | zero =>
      cases j with
      | zero => exact absurd rfl h
      | succ j' => rfl
    | succ i' =>
      cases j with
      | zero => rfl
      | succ j' =>
        have h' : i' ≠ j' := by omega
        simpa using ih h'

theorem getD_eq_default_of_le {α : Type} {l : List α} {i : Nat} (h : l.length ≤ i) (d : α) :
    l.getD i d = d := by
  induction l generalizing i with
  | nil => rfl
  | cons x xs ih =>
    cases i with
    | zero => simp at h
    | succ j =>
      have hj : xs.length ≤ j := by simpa using h
      simpa using ih hj

theorem getD_range {n i : Nat} (h : i < n) (d : Nat) : (List.range n).getD i d = i := by
  simp [List.getD, List.getElem?_range h]

theorem getD_replicate {n i : Nat} (h : i < n) (d : Nat) :
    (List.replicate n (0 : Nat)).getD i d = 0 := by
  simp [List.getD, List.getElem?_replicate, Nat.lt_iff_add_one_le, h]

/-! ## Sortedness and deduplication (for C9) -/

theorem sortRat_chain (l : List ℚ) : List.Chain' (fun a b => a ≤ b) (sortRat l) := by
  have h := List.sorted_insertionSort (fun a b : ℚ => a ≤ b) l
  exact List.Pairwise.chain' h

theorem chain_le_drop {x y : ℚ} {l : List ℚ}
    (h : List.Chain' (fun a b => a ≤ b) (x :: y :: l)) :
    List.Chain' (fun a b => a ≤ b) (x :: l) := by
  rcases l with _ | ⟨z, l'⟩
  · simp
  · rcases List.chain'_cons.mp h with ⟨hxy, h2⟩
    rcases List.chain'_cons.mp h2 with ⟨hyz, h3⟩
    exact List.chain'_cons.mpr ⟨le_trans hxy hyz, h3⟩

theorem dedupGo_chain {tol : ℚ} {l : List ℚ} :
    ∀ {last : ℚ}, List.Chain' (fun a b => a ≤ b) (last :: l) →
    List.Chain' (fun a b => a + tol < b) (last :: dedupGo tol last l) := by
  induction l with
  | nil => intro last _; simp [dedupGo]
  | cons a rest ih =>
    intro last h
    rcases List.chain'_cons.mp h with ⟨hla, hrest⟩
    by_cases hc : tol < a - last
    · simp only [dedupGo, if_pos hc]
      exact List.chain'_cons.mpr ⟨by linarith, ih hrest⟩
    · simp only [dedupGo, if_neg hc]
      exact ih (chain_le_drop h)

theorem dedup_chain {tol : ℚ} {l : List ℚ} (h : List.Chain' (fun a b => a ≤ b) l) :
    List.Chain' (fun a b => a + tol < b) (dedup l tol) := by
  rcases l with _ | ⟨a, rest⟩
  · simp [dedup]
  · exact dedupGo_chain h

theorem chain'_getD {R : ℚ → ℚ → Prop} :
    ∀ {l : List ℚ}, List.Chain' R l → ∀ i, i + 1 < l.length →
      R (l.getD i 0) (l.getD (i+1) 0)
  | [], _, i, hi => by simp at hi
  | [x], _, i, hi => by simp at hi
  | x :: y :: l, h, 0, hi => (List.chain'_cons.mp h).1
  | x :: y :: l, h, i + 1, hi => by
    have := chain'_getD (List.chain'_cons.mp h).2 i (by simpa using hi)
    simpa using this

/-! ## Telescoping sums (for C5 and C9) -/

theorem sum_range_map_sub (f : Nat → ℚ) (n : Nat) :
    ((List.range n).map (fun i => f (i+1) - f i)).sum = f n - f 0 := by
  induction n with
  | zero => simp
  | succ n ih =>
    rw [List.range_succ, List.map_append, List.sum_append, ih]
    simp

theorem sum_pos_of_gaps {g : ℚ} (hg : 0 < g) {l : List ℚ}
    (h : List.Chain' (fun a b => a + g < b) l) (hlen : 2 ≤ l.length) :
    0 < l.getD (l.length - 1) 0 - l.getD 0 0 := by
  have htel := sum_range_map_sub (fun i => l.getD i 0) (l.length - 1)
  rw [← htel]
  apply List.sum_pos
  · intro q hq
    rcases List.mem_map.mp hq with ⟨i, hi, rfl⟩
    have hi' : i + 1 < l.length := by
      have := List.mem_range.mp hi; omega
    have := chain'_getD h i hi'
    linarith
  · intro hnil
    have hlen0 : l.length - 1 = 0 := by
      have := congrArg List.length hnil
      simpa using this
    omega

/-! ## Shape of the cell grid -/

theorem buildCells_length (xs ys : List ℚ) :
    (buildCells xs ys).length = ys.length - 1 := by
  simp [buildCells]

theorem buildCells_row_length {xs ys : List ℚ} {row : List TableCell}
    (h : row ∈ buildCells xs ys) : row.length = xs.length - 1 := by
  rcases List.mem_map.mp h with ⟨r, _, rfl⟩
  simp

theorem buildCells_mem {xs ys : List ℚ} {row : List TableCell} {cell : TableCell}
    (hrow : row ∈ buildCells xs ys) (hcell : cell ∈ row) :
    ∃ r c, r < ys.length - 1 ∧ c < xs.length - 1 ∧ cell = initCell xs ys r c := by
  rcases List.mem_map.mp hrow with ⟨r, hr, rfl⟩
  rcases List.mem_map.mp hcell with ⟨c, hc, rfl⟩
  exact ⟨r, c, List.mem_range.mp hr, List.mem_range.mp hc, rfl⟩

theorem buildCells_getD_row {xs ys : List ℚ} {r : Nat} (hr : r < ys.length - 1)
    (d : List TableCell) :
    (buildCells xs ys).getD r d =
      (List.range (xs.length - 1)).map (fun c => initCell xs ys r c) := by
  simp [buildCells, List.getD, List.getElem?_map, List.getElem?_range hr]

/-! ## Association-list grouping (JavaScript `Map` model) -/

theorem groupPush_keys {κ α : Type} [DecidableEq κ] (k : κ) (v : α)
    (acc : List (κ × List α)) :
    (groupPush k v acc).map Prod.fst =
      if k ∈ acc.map Prod.fst then acc.map Prod.fst else acc.map Prod.fst ++ [k] := by
  induction acc with
  | nil => simp [groupPush]
  | cons g rest ih =>
    obtain ⟨k', vs⟩ := g
    by_cases hk : k' = k
    · subst hk
      simp [groupPush]
    · simp only [groupPush, if_neg hk, List.map_cons, ih]
      by_cases hmem : k ∈ rest.map Prod.fst
      · rw [if_pos hmem, if_pos (List.mem_cons_of_mem _ hmem)]

      · have hmem' : k ∉ k' :: rest.map Prod.fst := by
          simp only [List.mem_cons]
          rintro (rfl | hc)
          · exact hk rfl
          · exact hmem hc
        rw [if_neg hmem, if_neg hmem']
        simp

theorem groupPush_keys_nodup {κ α : Type} [DecidableEq κ] (k : κ) (v : α)
    {acc : List (κ × List α)} (h : (acc.map Prod.fst).Nodup) :
    ((groupPush k v acc).map Prod.fst).Nodup := by
  rw [groupPush_keys]
  by_cases hmem : k ∈ acc.map Prod.fst
  · simpa [hmem] using h
  · simp only [if_neg hmem]
    simpa [List.nodup_append, hmem] using h

theorem groupPush_lookup_eq {κ α : Type} [DecidableEq κ] (k : κ) (v : α)
    (acc : List (κ × List α)) :
    lookupGroup k (groupPush k v acc) = lookupGroup k acc ++ [v] := by
  induction acc with
  | nil => simp [groupPush, lookupGroup]
  | cons g rest ih =>
    obtain ⟨k', vs⟩ := g
    by_cases hk : k' = k
    · subst hk
      simp [groupPush, lookupGroup]
    · simp [groupPush, lookupGroup, hk, ih]

theorem groupPush_lookup_ne {κ α : Type} [DecidableEq κ] {k k' : κ} (h : k' ≠ k) (v : α)
    (acc : List (κ × List α)) :
    lookupGroup k' (groupPush k v acc) = lookupGroup k' acc := by
  induction acc with
  | nil => simp [groupPush, lookupGroup, Ne.symm h]
  | cons g rest ih =>
    obtain ⟨k1, vs⟩ := g
    by_cases hk : k1 = k
    · subst hk
      simp [groupPush, lookupGroup, Ne.symm h]
    · by_cases hk' : k1 = k'
      · subst hk'
        simp [groupPush, lookupGroup, hk]
      · simp [groupPush, lookupGroup, hk, hk', ih]

theorem groupFoldAux_lookup {κ α : Type} [DecidableEq κ] (key : α → κ) (l : List α) :
    ∀ (acc : List (κ × List α)) (k : κ),
      lookupGroup k (l.foldl (fun acc v => groupPush (key v) v acc) acc) =
        lookupGroup k acc ++ l.filter (fun v => decide (key v = k)) := by
  induction l with
  | nil => intro acc k; simp
  | cons v l ih =>
    intro acc k
    rw [List.foldl_cons, ih]
    by_cases hk : key v = k
    · rw [hk, groupPush_lookup_eq]
      simp [List.filter_cons, hk, List.append_assoc]
    · rw [groupPush_lookup_ne (fun h => hk h.symm)]
      simp [List.filter_cons, hk]

theorem groupFold_lookup {κ α : Type} [DecidableEq κ] (key : α → κ) (l : List α) (k : κ) :
    lookupGroup k (groupFold key l) = l.filter (fun v => decide (key v = k)) := by
  rw [groupFold, groupFoldAux_lookup]
  rfl

theorem groupFold_keys_nodup {κ α : Type} [DecidableEq κ] (key : α → κ) (l : List α) :
    ((groupFold key l).map Prod.fst).Nodup := by
  suffices h : ∀ (acc : List (κ × List α)), (acc.map Prod.fst).Nodup →
      ((l.foldl (fun acc v => groupPush (key v) v acc) acc).map Prod.fst).Nodup by
    exact h [] (by simp)
  induction l with
  | nil => intro acc hacc; simpa using hacc
  | cons v l ih =>
    intro acc hacc
    exact ih _ (groupPush_keys_nodup _ _ hacc)

theorem lookupGroup_eq_of_mem {κ α : Type} [DecidableEq κ] {acc : List (κ × List α)}
    (hnd : (acc.map Prod.fst).Nodup) {k : κ} {vs : List α} (h : (k, vs) ∈ acc) :
    lookupGroup k acc = vs := by
  induction acc with
  | nil => simp at h
  | cons g rest ih =>
    obtain ⟨k1, vs1⟩ := g
    rcases List.mem_cons.mp h with heq | hmem
    · cases heq
      simp [lookupGroup]
    · have hnd2 : (k1 :: rest.map Prod.fst).Nodup := by
        rw [List.map_cons] at hnd; exact hnd
      have hnd' := List.nodup_cons.mp hnd2
      have hk1 : k1 ≠ k := by
        rintro rfl
        exact hnd'.1 (List.mem_map.mpr ⟨(k1, vs), hmem, rfl⟩)
      simp only [lookupGroup, if_neg hk1]
      exact ih hnd'.2 hmem

theorem mem_of_lookupGroup {κ α : Type} [DecidableEq κ] {acc : List (κ × List α)}
    {k : κ} {v : α} (h : v ∈ lookupGroup k acc) : ∃ vs, (k, vs) ∈ acc ∧ v ∈ vs := by
  induction acc with
  | nil => simp [lookupGroup] at h
  | cons g rest ih =>
    obtain ⟨k1, vs1⟩ := g
    by_cases hk : k1 = k
    · subst hk
      simp only [lookupGroup, if_pos rfl] at h
      exact ⟨vs1, List.mem_cons_self _ _, h⟩
    · simp only [lookupGroup, if_neg hk] at h
      obtain ⟨vs, hmem, hv⟩ := ih h
      exact ⟨vs, List.mem_cons_of_mem _ hmem, hv⟩

theorem mem_groupFold_of_lookup_ne_nil {κ α : Type} [DecidableEq κ]
    {acc : List (κ × List α)} {k : κ} (h : lookupGroup k acc ≠ []) :
    (k, lookupGroup k acc) ∈ acc := by
  induction acc with
  | nil => simp [lookupGroup] at h
  | cons g rest ih =>
    obtain ⟨k1, vs1⟩ := g
    by_cases hk : k1 = k
    · subst hk
      simp only [lookupGroup, if_pos rfl] at h ⊢
      exact List.mem_cons_self _ _
    · simp only [lookupGroup, if_neg hk] at h ⊢
      exact List.mem_cons_of_mem _ (ih h)

theorem groupFold_mem_val {κ α : Type} [DecidableEq κ] {key : α → κ} {l : List α}
    {k : κ} {vs : List α} (h : (k, vs) ∈ groupFold key l) :
    vs = l.filter (fun v => decide (key v = k)) := by
  have := lookupGroup_eq_of_mem (groupFold_keys_nodup key l) h
  rw [← this, groupFold_lookup]

theorem groupFold_keys {κ α : Type} [DecidableEq κ] (key : α → κ) (l : List α) :
    (groupFold key l).map Prod.fst = firstAppearances (l.map key) := by
  suffices h : ∀ (acc : List (κ × List α)),
      ((l.foldl (fun acc v => groupPush (key v) v acc) acc).map Prod.fst) =
        (l.map key).foldl (fun acc k => if k ∈ acc then acc else acc ++ [k])
          (acc.map Prod.fst) by
    exact h []
  induction l with
  | nil => intro acc; rfl
  | cons v l ih =>
    intro acc
    rw [List.foldl_cons, ih, List.map_cons, List.foldl_cons, groupPush_keys]

/-! ## Cell-text assignment -/

theorem assignTexts_eq_map (tes : List PdfElement) (cells : List (List TableCell)) :
    assignTexts tes cells =
      cells.map (fun row => row.map (fun c => tes.foldl cellStep c)) := by
  induction tes generalizing cells with
  | nil => simp [assignTexts]
  | cons te tes ih =>
    have h1 : assignTexts (te :: tes) cells = assignTexts tes (assignStep cells te) := rfl
    rw [h1, ih]
    simp [assignStep, List.map_map, Function.comp]

theorem cellStep_geom (c : TableCell) (te : PdfElement) :
    (cellStep c te).row = c.row ∧ (cellStep c te).col = c.col ∧
    (cellStep c te).x = c.x ∧ (cellStep c te).y = c.y ∧
    (cellStep c te).width = c.width ∧ (cellStep c te).height = c.height := by
  unfold cellStep appendText
  split <;> simp

theorem foldl_cellStep_geom (tes : List PdfElement) (c : TableCell) :
    (tes.foldl cellStep c).row = c.row ∧ (tes.foldl cellStep c).col = c.col ∧
    (tes.foldl cellStep c).x = c.x ∧ (tes.foldl cellStep c).y = c.y ∧
    (tes.foldl cellStep c).width = c.width ∧ (tes.foldl cellStep c).height = c.height := by
  induction tes generalizing c with
  | nil => simp
  | cons te tes ih =>
    rw [List.foldl_cons]
    obtain ⟨h1, h2, h3, h4, h5, h6⟩ := ih (cellStep c te)
    obtain ⟨g1, g2, g3, g4, g5, g6⟩ := cellStep_geom c te
    exact ⟨h1.trans g1, h2.trans g2, h3.trans g3, h4.trans g4, h5.trans g5, h6.trans g6⟩

theorem matchCell_cellStep (te te' : PdfElement) (c : TableCell) :
    matchCell te (cellStep c te') ↔ matchCell te c := by
  obtain ⟨_, _, g3, g4, g5, g6⟩ := cellStep_geom c te'
  unfold matchCell
  rw [g3, g4, g5, g6]

theorem foldl_cellStep_ids (tes : List PdfElement) (c : TableCell) :
    (tes.foldl cellStep c).textElementIds =
      c.textElementIds ++
        (tes.filter (fun te => decide (matchCell te c))).map (fun te => te.id) := by
  induction tes generalizing c with
  | nil => simp
  | cons te tes ih =>
    rw [List.foldl_cons, ih]
    have hfc : tes.filter (fun t => decide (matchCell t (cellStep c te))) =
        tes.filter (fun t => decide (matchCell t c)) := by
      apply List.filter_congr
      intro t _
      simp [matchCell_cellStep]
    rw [hfc]
    by_cases hm : matchCell te c
    · simp [cellStep, appendText, if_pos hm, List.filter_cons, hm]
    · simp [cellStep, if_neg hm, List.filter_cons, hm]

theorem foldl_cellStep_text (tes : List PdfElement) (c : TableCell) :
    (tes.foldl cellStep c).text =
      joinFrom c.text
        ((tes.filter (fun te => decide (matchCell te c))).map (fun te => te.str.getD "")) := by
  induction tes generalizing c with
  | nil => simp [joinFrom]
  | cons te tes ih =>
    rw [List.foldl_cons, ih]
    have hfc : tes.filter (fun t => decide (matchCell t (cellStep c te))) =
        tes.filter (fun t => decide (matchCell t c)) := by
      apply List.filter_congr
      intro t _
      simp [matchCell_cellStep]
    rw [hfc]
    by_cases hm : matchCell te c
    · have htext : (cellStep c te).text =
          if c.text ≠ "" then c.text ++ " " ++ te.str.getD "" else te.str.getD "" := by
        simp [cellStep, appendText, if_pos hm]
      rw [htext]
      simp [List.filter_cons, hm, joinFrom]
    · simp [cellStep, if_neg hm, List.filter_cons, hm]

theorem append_space_ne_empty (t s : String) : t ++ " " ++ s ≠ "" := by
  intro h
  have h1 := congrArg String.length h
  rw [String.length_append, String.length_append] at h1
  have h2 : (" " : String).length = 1 := rfl
  have h3 : ("" : String).length = 0 := rfl
  rw [h2, h3] at h1
  omega

theorem joinFrom_ne (ss : List String) : ∀ t : String, t ≠ "" →
    joinFrom t ss = joinSpace (t :: ss) := by
  induction ss with
  | nil => intro t ht; rfl
  | cons s rest ih =>
    intro t ht
    have h1 : joinFrom t (s :: rest) = joinFrom (if t ≠ "" then t ++ " " ++ s else s) rest := rfl
    rw [h1, if_pos ht, ih _ (append_space_ne_empty t s)]
    cases rest with
    | nil => simp [joinSpace]
    | cons r rr => simp [joinSpace, String.append_assoc]

theorem joinFrom_empty (ss : List String) (hs : ∀ s ∈ ss, s ≠ "") :
    joinFrom "" ss = joinSpace ss := by
  cases ss with
  | nil => rfl
  | cons s rest =>
    have h1 : joinFrom "" (s :: rest) =
        joinFrom (if ("" : String) ≠ "" then "" ++ " " ++ s else s) rest := rfl
    rw [h1, if_neg (fun h : ("" : String) ≠ "" => h rfl)]
    exact joinFrom_ne rest s (hs s (by simp))

/-! ## Union-find: the root function and its adequacy -/

theorem rootN_of_fix {p : List Nat} {x : Nat} (h : p.getD x x = x) :
    ∀ fuel, rootN fuel p x = x := by
  intro fuel
  cases fuel with
  | zero => rfl
  | succ f =>
    simp only [rootN]
    rw [if_pos h]

theorem rootN_add_of_root {p : List Nat} :
    ∀ (fuel x : Nat),
      p.getD (rootN fuel p x) (rootN fuel p x) = rootN fuel p x →
      ∀ m, rootN (fuel + m) p x = rootN fuel p x := by
  intro fuel
  induction fuel with
  | zero =>
    intro x h m
    simpa using rootN_of_fix h m
  | succ f ih =>
    intro x h m
    by_cases hx : p.getD x x = x
    · rw [rootN_of_fix hx, rootN_of_fix hx]
    · have e1 : rootN (f + 1) p x = rootN f p (p.getD x x) := by
        simp only [rootN]
        rw [if_neg hx]
      have e2 : rootN (f + 1 + m) p x = rootN (f + m) p (p.getD x x) := by
        have harith : f + 1 + m = (f + m) + 1 := by omega
        rw [harith]
        simp only [rootN]
        rw [if_neg hx]
      rw [e2, e1]
      rw [e1] at h
      exact ih (p.getD x x) h m

theorem ufPhi_le (uf : UnionFind) (x : Nat) : ufPhi uf x ≤ uf.parent.length :=
  Nat.sub_le _ _

theorem ufPhi_parent_lt {uf : UnionFind} (h : UFInv uf) {x : Nat}
    (hx : x < uf.parent.length) (hne : uf.parent.getD x x ≠ x) :
    ufPhi uf (uf.parent.getD x x) < ufPhi uf x := by
  have hrk := h.rk x hx hne
  have hsubset : (Finset.range uf.parent.length).filter
      (fun z => uf.rank.getD z 0 < uf.rank.getD x 0) ⊆
      (Finset.range uf.parent.length).filter
      (fun z => uf.rank.getD z 0 < uf.rank.getD (uf.parent.getD x x) 0) := by
    intro z hz
    simp only [Finset.mem_filter] at hz ⊢
    exact ⟨hz.1, lt_trans hz.2 hrk⟩
  have hss := (Finset.ssubset_iff_of_subset hsubset).mpr
    ⟨x, by simp only [Finset.mem_filter, Finset.mem_range]; exact ⟨hx, hrk⟩,
      by simp only [Finset.mem_filter, Finset.mem_range, not_and]; intro _; exact lt_irrefl _⟩
  have hcard := Finset.card_lt_card hss
  have hle : ((Finset.range uf.parent.length).filter
      (fun z => uf.rank.getD z 0 < uf.rank.getD (uf.parent.getD x x) 0)).card ≤
      uf.parent.length := by
    calc ((Finset.range uf.parent.length).filter
        (fun z => uf.rank.getD z 0 < uf.rank.getD (uf.parent.getD x x) 0)).card
        ≤ (Finset.range uf.parent.length).card := Finset.card_filter_le _ _
      _ = uf.parent.length := Finset.card_range _
  unfold ufPhi
  omega

theorem rootN_adequate {uf : UnionFind} (h : UFInv uf) :
    ∀ (fuel x : Nat), x < uf.parent.length → ufPhi uf x ≤ fuel →
      uf.parent.getD (rootN fuel uf.parent x) (rootN fuel uf.parent x) =
        rootN fuel uf.parent x ∧ rootN fuel uf.parent x < uf.parent.length := by
  intro fuel
  induction fuel with
  | zero =>
    intro x hx hphi
    have hfix : uf.parent.getD x x = x := by
      by_contra hne
      have := ufPhi_parent_lt h hx hne
      omega
    exact ⟨hfix, hx⟩
  | succ f ih =>
    intro x hx hphi
    by_cases hfix : uf.parent.getD x x = x
    · rw [rootN_of_fix hfix]
      exact ⟨hfix, hx⟩
    · have e : rootN (f+1) uf.parent x = rootN f uf.parent (uf.parent.getD x x) := by
        simp only [rootN]
        rw [if_neg hfix]
      rw [e]
      have hpx : uf.parent.getD x x < uf.parent.length := h.dom x hx
      have hphi' : ufPhi uf (uf.parent.getD x x) ≤ f := by
        have := ufPhi_parent_lt h hx hfix
        omega
      exact ih _ hpx hphi'

theorem rootN_eq_rt {uf : UnionFind} (h : UFInv uf) {x fuel : Nat}
    (hx : x < uf.parent.length) (hphi : ufPhi uf x ≤ fuel) :
    rootN fuel uf.parent x = uf.rt x := by
  have hroot := (rootN_adequate h (ufPhi uf x) x hx le_rfl).1
  have h1 : rootN fuel uf.parent x = rootN (ufPhi uf x) uf.parent x := by
    have harith : fuel = ufPhi uf x + (fuel - ufPhi uf x) := by omega
    rw [harith]
    exact rootN_add_of_root _ _ hroot _
  have h2 : uf.rt x = rootN (ufPhi uf x) uf.parent x := by
    unfold UnionFind.rt
    have harith : uf.parent.length = ufPhi uf x + (uf.parent.length - ufPhi uf x) := by
      have := ufPhi_le uf x; omega
    rw [harith]
    exact rootN_add_of_root _ _ hroot _
  rw [h1, h2]

theorem rt_isRoot {uf : UnionFind} (h : UFInv uf) (x : Nat) :
    uf.parent.getD (uf.rt x) (uf.rt x) = uf.rt x := by
  by_cases hx : x < uf.parent.length
  · exact (rootN_adequate h uf.parent.length x hx (ufPhi_le uf x)).1
  · have hd : uf.parent.getD x x = x := getD_eq_default_of_le (by omega) x
    rw [show uf.rt x = x from rootN_of_fix hd _]
    exact hd

theorem rt_lt {uf : UnionFind} (h : UFInv uf) {x : Nat} (hx : x < uf.parent.length) :
    uf.rt x < uf.parent.length :=
  (rootN_adequate h uf.parent.length x hx (ufPhi_le uf x)).2

theorem rt_of_ge {uf : UnionFind} {x : Nat} (hx : uf.parent.length ≤ x) : uf.rt x = x :=
  rootN_of_fix (getD_eq_default_of_le hx x) _

theorem rt_of_root {uf : UnionFind} {r : Nat} (hr : uf.parent.getD r r = r) : uf.rt r = r :=
  rootN_of_fix hr _

theorem rt_idem {uf : UnionFind} (h : UFInv uf) (x : Nat) : uf.rt (uf.rt x) = uf.rt x :=
  rt_of_root (rt_isRoot h x)

theorem rt_parent {uf : UnionFind} (h : UFInv uf) {x : Nat} (hx : x < uf.parent.length) :
    uf.rt (uf.parent.getD x x) = uf.rt x := by
  by_cases hfix : uf.parent.getD x x = x
  · rw [hfix]
  · have hfuel : uf.parent.length = (uf.parent.length - 1) + 1 := by omega
    have e : uf.rt x = rootN ((uf.parent.length - 1) + 1) uf.parent x := by
      unfold UnionFind.rt
      rw [← hfuel]
    have e0 : rootN ((uf.parent.length - 1) + 1) uf.parent x =
        rootN (uf.parent.length - 1) uf.parent (uf.parent.getD x x) := by
      simp only [rootN]
      rw [if_neg hfix]
    rw [e, e0]
    refine (rootN_eq_rt h (h.dom x hx) ?_).symm
    have h1 := ufPhi_parent_lt h hx hfix
    have h2 := ufPhi_le uf x
    omega

theorem rank_le_rt {uf : UnionFind} (h : UFInv uf) :
    ∀ (fuel x : Nat), x < uf.parent.length → ufPhi uf x ≤ fuel →
      uf.rank.getD x 0 ≤ uf.rank.getD (uf.rt x) 0 := by
  intro fuel
  induction fuel with
  | zero =>
    intro x hx hphi
    have hfix : uf.parent.getD x x = x := by
      by_contra hne
      have := ufPhi_parent_lt h hx hne
      omega
    rw [rt_of_root hfix]
  | succ f ih =>
    intro x hx hphi
    by_cases hfix : uf.parent.getD x x = x
    · rw [rt_of_root hfix]
    · have h1 : uf.rank.getD x 0 < uf.rank.getD (uf.parent.getD x x) 0 := h.rk x hx hfix
      have h2 := ih (uf.parent.getD x x) (h.dom x hx)
        (by have := ufPhi_parent_lt h hx hfix; omega)
      rw [rt_parent h hx] at h2
      omega

theorem rt_ne_self {uf : UnionFind} (h : UFInv uf) {x : Nat} (hx : x < uf.parent.length)
    (hne : uf.parent.getD x x ≠ x) : uf.rt x ≠ x := by
  intro heq
  have h1 : uf.rank.getD x 0 < uf.rank.getD (uf.parent.getD x x) 0 := h.rk x hx hne
  have h2 := rank_le_rt h (ufPhi uf (uf.parent.getD x x)) (uf.parent.getD x x)
    (h.dom x hx) le_rfl
  rw [rt_parent h hx, heq] at h2
  omega

/-! ## Union-find: path compression preserves roots -/

theorem compress_inv {uf : UnionFind} (h : UFInv uf) {x : Nat}
    (hx : x < uf.parent.length) (hxr : x ≠ uf.rt x) :
    UFInv { uf with parent := uf.parent.set x (uf.rt x) } := by
  have hne : uf.parent.getD x x ≠ x := by
    intro hfix
    exact hxr (rt_of_root hfix).symm
  constructor
  · simpa [List.length_set] using h.len
  · intro z hz
    rw [List.length_set] at hz
    by_cases hzx : z = x
    · subst hzx
      simp only
      rw [getD_set_self hz, List.length_set]
      exact rt_lt h hz
    · simp only
      rw [getD_set_ne (fun he => hzx he.symm), List.length_set]
      exact h.dom z hz
  · intro z hz hzne
    rw [List.length_set] at hz
    by_cases hzx : z = x
    · subst hzx
      simp only at hzne ⊢
      rw [getD_set_self hz] at hzne ⊢
      have h1 : uf.rank.getD z 0 < uf.rank.getD (uf.parent.getD z z) 0 := h.rk z hz hne
      have h2 := rank_le_rt h (ufPhi uf (uf.parent.getD z z)) (uf.parent.getD z z)
        (h.dom z hz) le_rfl
      rw [rt_parent h hz] at h2
      omega
    · simp only at hzne ⊢
      rw [getD_set_ne (fun he => hzx he.symm)] at hzne ⊢
      exact h.rk z hz hzne

theorem compress_rt {uf : UnionFind} (h : UFInv uf) {x : Nat}
    (hx : x < uf.parent.length) (hxr : x ≠ uf.rt x) :
    ∀ y, (UnionFind.mk (uf.parent.set x (uf.rt x)) uf.rank).rt y = uf.rt y := by
  have h' : UFInv (UnionFind.mk (uf.parent.set x (uf.rt x)) uf.rank) := compress_inv h hx hxr
  set uf' : UnionFind := UnionFind.mk (uf.parent.set x (uf.rt x)) uf.rank with huf'
  have hlen : uf'.parent.length = uf.parent.length := by
    simp [huf', List.length_set]
  have hne : uf.parent.getD x x ≠ x := by
    intro hfix
    exact hxr (rt_of_root hfix).symm
  suffices H : ∀ fuel y, ufPhi uf' y ≤ fuel → uf'.rt y = uf.rt y by
    intro y
    exact H (ufPhi uf' y) y le_rfl
  intro fuel
  induction fuel with
  | zero =>
    intro y hphi
    by_cases hy : y < uf.parent.length
    · have hfix' : uf'.parent.getD y y = y := by
        by_contra hne'
        have := ufPhi_parent_lt h' (hlen ▸ hy) hne'
        omega
      rw [rt_of_root hfix']
      by_cases hyx : y = x
      · subst hyx
        rw [show uf'.parent = uf.parent.set y (uf.rt y) from rfl] at hfix'
        rw [getD_set_self hy] at hfix'
        exact absurd hfix'.symm hxr
      · rw [show uf'.parent = uf.parent.set x (uf.rt x) from rfl] at hfix'
        rw [getD_set_ne (fun he => hyx he.symm)] at hfix'
        exact (rt_of_root hfix').symm
    · rw [rt_of_ge (hlen ▸ (le_of_not_lt hy)), rt_of_ge (le_of_not_lt hy)]
  | succ f ih =>
    intro y hphi
    by_cases hy : y < uf.parent.length
    · by_cases hfix' : uf'.parent.getD y y = y
      · rw [rt_of_root hfix']
        by_cases hyx : y = x
        · subst hyx
          rw [show uf'.parent = uf.parent.set y (uf.rt y) from rfl] at hfix'
          rw [getD_set_self hy] at hfix'
          exact absurd hfix'.symm hxr
        · rw [show uf'.parent = uf.parent.set x (uf.rt x) from rfl] at hfix'
          rw [getD_set_ne (fun he => hyx he.symm)] at hfix'
          exact (rt_of_root hfix').symm
      · have hstep : uf'.rt (uf'.parent.getD y y) = uf'.rt y := rt_parent h' (hlen ▸ hy)
        have hphi' : ufPhi uf' (uf'.parent.getD y y) ≤ f := by
          have := ufPhi_parent_lt h' (hlen ▸ hy) hfix'
          omega
        have hih := ih (uf'.parent.getD y y) hphi'
        rw [hstep] at hih
        rw [hih]
        by_cases hyx : y = x
        · subst hyx
          rw [show uf'.parent = uf.parent.set y (uf.rt y) from rfl]
          rw [getD_set_self hy]
          exact rt_idem h y
        · rw [show uf'.parent = uf.parent.set x (uf.rt x) from rfl]
          rw [getD_set_ne (fun he => hyx he.symm)]
          exact rt_parent h hy
    · rw [rt_of_ge (hlen ▸ (le_of_not_lt hy)), rt_of_ge (le_of_not_lt hy)]

theorem findAux_spec {uf : UnionFind} (h : UFInv uf) :
    ∀ (fuel x : Nat), x < uf.parent.length → ufPhi uf x ≤ fuel →
      (UnionFind.findAux fuel uf x).1 = uf.rt x ∧
      UFInv (UnionFind.findAux fuel uf x).2 ∧
      (UnionFind.findAux fuel uf x).2.parent.length = uf.parent.length ∧
      (UnionFind.findAux fuel uf x).2.rank = uf.rank ∧
      ∀ y, (UnionFind.findAux fuel uf x).2.rt y = uf.rt y := by
  intro fuel
  induction fuel with
  | zero =>
    intro x hx hphi
    have hfix : uf.parent.getD x x = x := by
      by_contra hne
      have := ufPhi_parent_lt h hx hne
      omega
    refine ⟨(rt_of_root hfix).symm, h, rfl, rfl, fun y => rfl⟩
  | succ f ih =>
    intro x hx hphi
    by_cases hfix : uf.parent.getD x x = x
    · have e : UnionFind.findAux (f+1) uf x = (x, uf) := by
        simp only [UnionFind.findAux]
        rw [if_pos hfix]
      rw [e]
      exact ⟨(rt_of_root hfix).symm, h, rfl, rfl, fun y => rfl⟩
    · have hpx : uf.parent.getD x x < uf.parent.length := h.dom x hx
      have hphi' : ufPhi uf (uf.parent.getD x x) ≤ f := by
        have := ufPhi_parent_lt h hx hfix
        omega
      obtain ⟨ih1, ih2, ih3, ih4, ih5⟩ := ih (uf.parent.getD x x) hpx hphi'
      have e : UnionFind.findAux (f+1) uf x =
          ((UnionFind.findAux f uf (uf.parent.getD x x)).1,
           { (UnionFind.findAux f uf (uf.parent.getD x x)).2 with
             parent := (UnionFind.findAux f uf (uf.parent.getD x x)).2.parent.set x
               (UnionFind.findAux f uf (uf.parent.getD x x)).1 }) := by
        simp only [UnionFind.findAux]
        rw [if_neg hfix]
      rw [e]
      set uf1 := (UnionFind.findAux f uf (uf.parent.getD x x)).2 with huf1
      set r := (UnionFind.findAux f uf (uf.parent.getD x x)).1 with hr
      have hrr : r = uf.rt x := by rw [ih1, rt_parent h hx]
      have hx1 : x < uf1.parent.length := by rw [ih3]; exact hx
      have hrt1 : uf1.rt x = uf.rt x := ih5 x
      have hxr1 : x ≠ uf1.rt x := by
        rw [hrt1]
        intro heq
        exact rt_ne_self h hx hfix heq.symm
      have hset : uf1.parent.set x r = uf1.parent.set x (uf1.rt x) := by
        rw [hrr, ← hrt1]
      constructor
      · exact hrr
      constructor
      · show UFInv { uf1 with parent := uf1.parent.set x r }
        rw [hset]
        exact compress_inv ih2 hx1 hxr1
      constructor
      · show ({ uf1 with parent := uf1.parent.set x r } : UnionFind).parent.length =
          uf.parent.length
        simp only [List.length_set]
        exact ih3
      constructor
      · exact ih4
      · intro y
        show ({ uf1 with parent := uf1.parent.set x r } : UnionFind).rt y = uf.rt y
        have hc := compress_rt ih2 hx1 hxr1 y
        rw [← hset] at hc
        rw [hc]
        exact ih5 y

theorem find_spec {uf : UnionFind} (h : UFInv uf) {x : Nat} (hx : x < uf.parent.length) :
    (uf.find x).1 = uf.rt x ∧ UFInv (uf.find x).2 ∧
    (uf.find x).2.parent.length = uf.parent.length ∧
    (uf.find x).2.rank = uf.rank ∧ ∀ y, (uf.find x).2.rt y = uf.rt y :=
  findAux_spec h uf.parent.length x hx (ufPhi_le uf x)

/-! ## Union-find: linking two roots -/

theorem link_inv {uf : UnionFind} (h : UFInv uf) {c r : Nat}
    (hcRoot : uf.parent.getD c c = c) (hrRoot : uf.parent.getD r r = r)
    (hcr : c ≠ r) (hc : c < uf.parent.length) (hr : r < uf.parent.length)
    (hrank : uf.rank.getD c 0 < uf.rank.getD r 0) :
    UFInv { uf with parent := uf.parent.set c r } := by
  constructor
  · simpa [List.length_set] using h.len
  · intro z hz
    rw [List.length_set] at hz
    by_cases hzc : z = c
    · subst hzc
      simp only
      rw [getD_set_self hz, List.length_set]
      exact hr
    · simp only
      rw [getD_set_ne (fun he => hzc he.symm), List.length_set]
      exact h.dom z hz
  · intro z hz hzne
    rw [List.length_set] at hz
    by_cases hzc : z = c
    · subst hzc
      simp only at hzne ⊢
      rw [getD_set_self hz] at hzne ⊢
      exact hrank
    · simp only at hzne ⊢
      rw [getD_set_ne (fun he => hzc he.symm)] at hzne ⊢
      exact h.rk z hz hzne

theorem link_inv_bump {uf : UnionFind} (h : UFInv uf) {a b : Nat}
    (haRoot : uf.parent.getD a a = a) (hbRoot : uf.parent.getD b b = b)
    (hab : a ≠ b) (ha : a < uf.parent.length) (hb : b < uf.parent.length)
    (hrank : uf.rank.getD b 0 = uf.rank.getD a 0) :
    UFInv (UnionFind.mk (uf.parent.set b a) (uf.rank.set a (uf.rank.getD a 0 + 1))) := by
  have hranklen : a < uf.rank.length := by rw [h.len]; exact ha
  constructor
  · simp only [List.length_set]
    exact h.len
  · intro z hz
    simp only [List.length_set] at hz ⊢
    by_cases hzb : z = b
    · subst hzb
      rw [getD_set_self hz]
      exact ha
    · rw [getD_set_ne (fun he => hzb he.symm)]
      exact h.dom z hz
  · intro z hz hzne
    simp only [List.length_set] at hz
    by_cases hzb : z = b
    · subst hzb
      simp only at hzne ⊢
      rw [getD_set_self hz] at hzne ⊢
      rw [getD_set_ne hab, getD_set_self hranklen]
      omega
    · simp only at hzne ⊢
      rw [getD_set_ne (fun he => hzb he.symm)] at hzne ⊢
      have hbase := h.rk z hz hzne
      by_cases hza : z = a
      · subst hza
        exact absurd haRoot hzne
      · rw [getD_set_ne (fun he => hza he.symm)]
        by_cases hpa : uf.parent.getD z z = a
        · rw [hpa, getD_set_self hranklen]
          rw [hpa] at hbase
          omega
        · rw [getD_set_ne (fun he => hpa he.symm)]
          exact hbase

theorem link_rt {uf uf' : UnionFind} (h : UFInv uf) (h' : UFInv uf') {c r : Nat}
    (hparent : uf'.parent = uf.parent.set c r)
    (hcRoot : uf.parent.getD c c = c) (hrRoot : uf.parent.getD r r = r)
    (hcr : c ≠ r) (hc : c < uf.parent.length) :
    ∀ y, uf'.rt y = if uf.rt y = c then r else uf.rt y := by
  have hlen : uf'.parent.length = uf.parent.length := by
    rw [hparent, List.length_set]
  suffices H : ∀ fuel y, ufPhi uf' y ≤ fuel → uf'.rt y = if uf.rt y = c then r else uf.rt y by
    intro y
    exact H (ufPhi uf' y) y le_rfl
  have hcase : ∀ y, y < uf.parent.length → uf'.parent.getD y y = y →
      uf'.rt y = if uf.rt y = c then r else uf.rt y := by
    intro y hy hfix'
    rw [rt_of_root hfix']
    by_cases hyc : y = c
    · subst hyc
      rw [hparent, getD_set_self hy] at hfix'
      exact absurd hfix'.symm hcr
    · rw [hparent, getD_set_ne (fun he => hyc he.symm)] at hfix'
      rw [rt_of_root hfix']
      rw [if_neg (fun he : y = c => hyc he)]
  intro fuel
  induction fuel with
  | zero =>
    intro y hphi
    by_cases hy : y < uf.parent.length
    · have hfix' : uf'.parent.getD y y = y := by
        by_contra hne'
        have := ufPhi_parent_lt h' (hlen ▸ hy) hne'
        omega
      exact hcase y hy hfix'
    · have hyge := le_of_not_lt hy
      rw [rt_of_ge (hlen ▸ hyge), rt_of_ge hyge]
      rw [if_neg (fun he : y = c => hy (he ▸ hc))]
  | succ f ih =>
    intro y hphi
    by_cases hy : y < uf.parent.length
    · by_cases hfix' : uf'.parent.getD y y = y
      · exact hcase y hy hfix'
      · have hstep : uf'.rt (uf'.parent.getD y y) = uf'.rt y := rt_parent h' (hlen ▸ hy)
        have hphi' : ufPhi uf' (uf'.parent.getD y y) ≤ f := by
          have := ufPhi_parent_lt h' (hlen ▸ hy) hfix'
          omega
        have hih := ih (uf'.parent.getD y y) hphi'
        rw [hstep] at hih
        rw [hih]
        by_cases hyc : y = c
        · rw [hparent, hyc, getD_set_self hc]
          rw [rt_of_root hrRoot, rt_of_root hcRoot]
          rw [if_neg (fun he : r = c => hcr he.symm), if_pos rfl]
        · rw [hparent, getD_set_ne (fun he => hyc he.symm)]
          rw [rt_parent h hy]
    · have hyge := le_of_not_lt hy
      rw [rt_of_ge (hlen ▸ hyge), rt_of_ge hyge]
      rw [if_neg (fun he : y = c => hy (he ▸ hc))]

theorem if_link_iff {rx ry ra rb : Nat} (hne : ra ≠ rb) :
    ((if rx = ra then rb else rx) = (if ry = ra then rb else ry)) ↔
      (rx = ry ∨ (rx = ra ∧ rb = ry) ∨ (rx = rb ∧ ra = ry)) := by
  by_cases hx : rx = ra <;> by_cases hy : ry = ra <;> simp [hx, hy] <;> omega

theorem if_link_iff2 {rx ry ra rb : Nat} (hne : ra ≠ rb) :
    ((if rx = rb then ra else rx) = (if ry = rb then ra else ry)) ↔
      (rx = ry ∨ (rx = ra ∧ rb = ry) ∨ (rx = rb ∧ ra = ry)) := by
  by_cases hx : rx = rb <;> by_cases hy : ry = rb <;> simp [hx, hy] <;> omega

theorem union_spec {uf : UnionFind} (h : UFInv uf) {a b : Nat}
    (ha : a < uf.parent.length) (hb : b < uf.parent.length) :
    UFInv (uf.union a b) ∧ (uf.union a b).parent.length = uf.parent.length ∧
    ∀ x y, ((uf.union a b).rt x = (uf.union a b).rt y ↔
      (uf.rt x = uf.rt y ∨ (uf.rt x = uf.rt a ∧ uf.rt b = uf.rt y) ∨
       (uf.rt x = uf.rt b ∧ uf.rt a = uf.rt y))) := by
  obtain ⟨hfa1, hfa2, hfa3, hfa4, hfa5⟩ := find_spec h ha
  have hblt : b < (uf.find a).2.parent.length := by rw [hfa3]; exact hb
  obtain ⟨hfb1, hfb2, hfb3, hfb4, hfb5⟩ := find_spec hfa2 hblt
  set uf2 := ((uf.find a).2.find b).2 with huf2
  set ra := (uf.find a).1 with hra
  set rb := ((uf.find a).2.find b).1 with hrb
  have hra' : ra = uf.rt a := hfa1
  have hrb' : rb = uf.rt b := by rw [hfb1, hfa5]
  have hlen2 : uf2.parent.length = uf.parent.length := by rw [huf2, hfb3, hfa3]
  have hrt2 : ∀ y, uf2.rt y = uf.rt y := fun y => by rw [huf2, hfb5, hfa5]
  have hraLt : ra < uf.parent.length := by rw [hra']; exact rt_lt h ha
  have hrbLt : rb < uf.parent.length := by rw [hrb']; exact rt_lt h hb
  have hr2a : uf2.rt a = ra := by rw [hrt2 a, hra']
  have hr2b : uf2.rt b = rb := by rw [hrt2 b, hrb']
  have hraRoot : uf2.parent.getD ra ra = ra := by
    have hir := rt_isRoot hfb2 a
    rw [hr2a] at hir
    exact hir
  have hrbRoot : uf2.parent.getD rb rb = rb := by
    have hir := rt_isRoot hfb2 b
    rw [hr2b] at hir
    exact hir
  have hunion : uf.union a b =
      (if ra = rb then uf2
       else if uf2.rank.getD ra 0 < uf2.rank.getD rb 0 then
         { uf2 with parent := uf2.parent.set ra rb }
       else if uf2.rank.getD rb 0 < uf2.rank.getD ra 0 then
         { uf2 with parent := uf2.parent.set rb ra }
       else
         { uf2 with parent := uf2.parent.set rb ra,
                    rank := uf2.rank.set ra (uf2.rank.getD ra 0 + 1) }) := rfl
  by_cases hab : ra = rb
  · rw [hunion, if_pos hab]
    refine ⟨hfb2, hlen2, ?_⟩
    intro x y
    rw [hrt2, hrt2]
    constructor
    · intro hxy
      exact Or.inl hxy
    · intro hrhs
      rcases hrhs with h1 | ⟨h1, h2⟩ | ⟨h1, h2⟩
      · exact h1
      · omega
      · omega
  · by_cases hlt1 : uf2.rank.getD ra 0 < uf2.rank.getD rb 0
    · rw [hunion, if_neg hab, if_pos hlt1]
      have hinv' : UFInv { uf2 with parent := uf2.parent.set ra rb } :=
        link_inv hfb2 hraRoot hrbRoot hab (hlen2 ▸ hraLt) (hlen2 ▸ hrbLt) hlt1
      have hchar := link_rt hfb2 hinv' rfl hraRoot hrbRoot hab (hlen2 ▸ hraLt)
      refine ⟨hinv', ?_, ?_⟩
      · show (uf2.parent.set ra rb).length = uf.parent.length
        rw [List.length_set]
        exact hlen2
      · intro x y
        rw [hchar x, hchar y, hrt2 x, hrt2 y]
        rw [if_link_iff hab, hra', hrb']
    · by_cases hlt2 : uf2.rank.getD rb 0 < uf2.rank.getD ra 0
      · rw [hunion, if_neg hab, if_neg hlt1, if_pos hlt2]
        have hba : rb ≠ ra := fun he => hab he.symm
        have hinv' : UFInv { uf2 with parent := uf2.parent.set rb ra } :=
          link_inv hfb2 hrbRoot hraRoot hba (hlen2 ▸ hrbLt) (hlen2 ▸ hraLt) hlt2
        have hchar := link_rt hfb2 hinv' rfl hrbRoot hraRoot hba (hlen2 ▸ hrbLt)
        refine ⟨hinv', ?_, ?_⟩
        · show (uf2.parent.set rb ra).length = uf.parent.length
          rw [List.length_set]
          exact hlen2
        · intro x y
          rw [hchar x, hchar y, hrt2 x, hrt2 y]
          rw [if_link_iff2 hab, hra', hrb']
      · rw [hunion, if_neg hab, if_neg hlt1, if_neg hlt2]
        have hba : rb ≠ ra := fun he => hab he.symm
        have hrkeq : uf2.rank.getD rb 0 = uf2.rank.getD ra 0 := by omega
        have hinv' : UFInv (UnionFind.mk (uf2.parent.set rb ra)
            (uf2.rank.set ra (uf2.rank.getD ra 0 + 1))) :=
          link_inv_bump hfb2 hraRoot hrbRoot hab (hlen2 ▸ hraLt) (hlen2 ▸ hrbLt) hrkeq
        have hchar := link_rt hfb2 hinv' rfl hrbRoot hraRoot hba (hlen2 ▸ hrbLt)
        refine ⟨hinv', ?_, ?_⟩
        · show (uf2.parent.set rb ra).length = uf.parent.length
          rw [List.length_set]
          exact hlen2
        · intro x y
          rw [hchar x, hchar y, hrt2 x, hrt2 y]
          rw [if_link_iff2 hab, hra', hrb']

/-! ## Union-find: folding the union calls, connected components -/

theorem eqvGen_mono_strong {α : Type} {R S : α → α → Prop}
    (h : ∀ u v, R u v → Relation.EqvGen S u v) : ∀ {x y}, Relation.EqvGen R x y → Relation.EqvGen S x y := by
  intro x y hxy
  induction hxy with
  | rel u v huv => exact h u v huv
  | refl u => exact Relation.EqvGen.refl u
  | symm u v _ ih => exact Relation.EqvGen.symm u v ih
  | trans u v w _ _ ih1 ih2 => exact Relation.EqvGen.trans u v w ih1 ih2

theorem ofSize_inv (n : Nat) : UFInv (UnionFind.ofSize n) := by
  constructor
  · simp [UnionFind.ofSize]
  · intro x hx
    simp only [UnionFind.ofSize] at hx ⊢
    rw [List.length_range] at hx
    rw [getD_range hx]
    simpa using hx
  · intro x hx hne
    simp only [UnionFind.ofSize] at hx hne
    rw [List.length_range] at hx
    rw [getD_range hx] at hne
    exact absurd rfl hne

theorem ofSize_rt (n x : Nat) : (UnionFind.ofSize n).rt x = x := by
  by_cases hx : x < n
  · exact rt_of_root (by simpa [UnionFind.ofSize] using getD_range hx x)
  · refine rt_of_ge ?_
    simp only [UnionFind.ofSize, List.length_range]
    omega

theorem applyUnions_spec :
    ∀ (ps : List (Nat × Nat)) (uf : UnionFind), UFInv uf →
      (∀ q ∈ ps, q.1 < uf.parent.length ∧ q.2 < uf.parent.length) →
      UFInv (applyUnions uf ps) ∧
      (applyUnions uf ps).parent.length = uf.parent.length ∧
      ∀ x y, ((applyUnions uf ps).rt x = (applyUnions uf ps).rt y ↔
        Relation.EqvGen (fun u v => uf.rt u = uf.rt v ∨ (u, v) ∈ ps) x y) := by
  intro ps
  induction ps with
  | nil =>
    intro uf h _
    refine ⟨h, rfl, ?_⟩
    intro x y
    constructor
    · intro hxy
      exact Relation.EqvGen.rel x y (Or.inl hxy)
    · intro hxy
      induction hxy with
      | rel u v huv =>
        rcases huv with h1 | h1
        · exact h1
        · simp at h1
      | refl u => rfl
      | symm u v _ ih => exact ih.symm
      | trans u v w _ _ ih1 ih2 => exact ih1.trans ih2
  | cons q ps ih =>
    intro uf h hrange
    obtain ⟨a, b⟩ := q
    have hab := hrange (a, b) (List.mem_cons_self _ _)
    obtain ⟨hu1, hu2, hu3⟩ := union_spec h hab.1 hab.2
    have hrange' : ∀ p ∈ ps, p.1 < (uf.union a b).parent.length ∧
        p.2 < (uf.union a b).parent.length := by
      intro p hp
      rw [hu2]
      exact hrange p (List.mem_cons_of_mem _ hp)
    have happ : applyUnions uf ((a, b) :: ps) = applyUnions (uf.union a b) ps := rfl
    obtain ⟨f1, f2, f3⟩ := ih (uf.union a b) hu1 hrange'
    rw [happ]
    refine ⟨f1, by rw [f2, hu2], ?_⟩
    intro x y
    rw [f3 x y]
    constructor
    · apply eqvGen_mono_strong
      intro u v huv
      rcases huv with h1 | h1
      · rcases (hu3 u v).mp h1 with h2 | ⟨h2, h3⟩ | ⟨h2, h3⟩
        · exact Relation.EqvGen.rel u v (Or.inl h2)
        · refine Relation.EqvGen.trans u a v (Relation.EqvGen.rel u a (Or.inl h2)) ?_
          refine Relation.EqvGen.trans a b v (Relation.EqvGen.rel a b (Or.inr (List.mem_cons_self _ _))) ?_
          exact Relation.EqvGen.rel b v (Or.inl h3)
        · refine Relation.EqvGen.trans u b v (Relation.EqvGen.rel u b (Or.inl h2)) ?_
          refine Relation.EqvGen.trans b a v
            (Relation.EqvGen.symm a b (Relation.EqvGen.rel a b (Or.inr (List.mem_cons_self _ _)))) ?_
          exact Relation.EqvGen.rel a v (Or.inl h3)
      · exact Relation.EqvGen.rel u v (Or.inr (List.mem_cons_of_mem _ h1))
    · apply eqvGen_mono_strong
      intro u v huv
      rcases huv with h1 | h1
      · exact Relation.EqvGen.rel u v (Or.inl ((hu3 u v).mpr (Or.inl h1)))
      · rcases List.mem_cons.mp h1 with h2 | h2
        · have hq : u = a ∧ v = b := by
            have := Prod.mk.injEq u v a b ▸ h2
            simpa using h2
          obtain ⟨rfl, rfl⟩ := hq
          exact Relation.EqvGen.rel u v (Or.inl ((hu3 u v).mpr (Or.inr (Or.inl ⟨rfl, rfl⟩))))
        · exact Relation.EqvGen.rel u v (Or.inr h2)

theorem mem_intersectPairs_range {hls vls : List ClassifiedLine} {q : Nat × Nat}
    (h : q ∈ intersectPairs hls vls) :
    q.1 < hls.length + vls.length ∧ q.2 < hls.length + vls.length := by
  obtain ⟨a, b⟩ := q
  rw [intersectPairs] at h
  rcases List.mem_flatMap.mp h with ⟨hi, hhi, hmem⟩
  rcases List.mem_filterMap.mp hmem with ⟨vi, hvi, heq⟩
  rw [List.mem_range] at hhi hvi
  by_cases hc : intersects (hls.getD hi noLine) (vls.getD vi noLine)
  · rw [if_pos hc] at heq
    have := Option.some.inj heq
    obtain ⟨rfl, rfl⟩ : hi = a ∧ hls.length + vi = b := by
      constructor <;> [exact congrArg Prod.fst this; exact congrArg Prod.snd this]
    constructor <;> omega
  · rw [if_neg hc] at heq
    cases heq

theorem mem_intersectPairs_iff {hls vls : List ClassifiedLine} {hi vi : Nat}
    (hhi : hi < hls.length) (hvi : vi < vls.length) :
    ((hi, hls.length + vi) ∈ intersectPairs hls vls ↔
      intersects (hls.getD hi noLine) (vls.getD vi noLine)) := by
  constructor
  · intro h
    rw [intersectPairs] at h
    rcases List.mem_flatMap.mp h with ⟨hi', hhi', hmem⟩
    rcases List.mem_filterMap.mp hmem with ⟨vi', hvi', heq⟩
    by_cases hc : intersects (hls.getD hi' noLine) (vls.getD vi' noLine)
    · rw [if_pos hc] at heq
      have := Option.some.inj heq
      have h1 : hi' = hi := congrArg Prod.fst this
      have h2 : hls.length + vi' = hls.length + vi := congrArg Prod.snd this
      have h3 : vi' = vi := by omega
      rw [← h1, ← h3]
      exact hc
    · rw [if_neg hc] at heq
      cases heq
  · intro h
    rw [intersectPairs]
    apply List.mem_flatMap.mpr
    refine ⟨hi, List.mem_range.mpr hhi, ?_⟩
    apply List.mem_filterMap.mpr
    exact ⟨vi, List.mem_range.mpr hvi, by rw [if_pos h]⟩

theorem collectComponents_fst {uf : UnionFind} (h : UFInv uf) {n : Nat}
    (hn : n = uf.parent.length) :
    (collectComponents uf n).1 = groupFold (fun i => uf.rt i) (List.range n) := by
  suffices H : ∀ (l : List Nat) (accP : List (Nat × List Nat) × UnionFind),
      UFInv accP.2 → accP.2.parent.length = uf.parent.length →
      (∀ y, accP.2.rt y = uf.rt y) → (∀ i ∈ l, i < n) →
      (l.foldl (fun acc i => ((acc.2.find i).1, (acc.2.find i).2) |>
          (fun fr => (groupPush fr.1 i acc.1, fr.2))) accP).1 =
        l.foldl (fun ac i => groupPush (uf.rt i) i ac) accP.1 by
    have hr : ∀ i ∈ List.range n, i < n := fun i hi => List.mem_range.mp hi
    exact H (List.range n) ([], uf) h rfl (fun y => rfl) hr
  intro l
  induction l with
  | nil =>
    intro accP _ _ _ _
    rfl
  | cons i l ih =>
    intro accP hinv hlen hrt hmem
    have hi : i < accP.2.parent.length := by
      rw [hlen, ← hn]
      exact hmem i (List.mem_cons_self _ _)
    obtain ⟨hf1, hf2, hf3, _, hf5⟩ := find_spec hinv hi
    rw [List.foldl_cons, List.foldl_cons]
    have hstep := ih (groupPush (accP.2.find i).1 i accP.1, (accP.2.find i).2)
      hf2 (by rw [hf3, hlen]) (fun y => by rw [hf5, hrt])
      (fun j hj => hmem j (List.mem_cons_of_mem _ hj))
    simp only at hstep ⊢
    rw [hstep]
    have hkey : (accP.2.find i).1 = uf.rt i := by rw [hf1, hrt]
    rw [hkey]

theorem mem_component_iff {uf : UnionFind} (h : UFInv uf) {n : Nat}
    (hn : n = uf.parent.length) {i j : Nat} (hi : i < n) (hj : j < n) :
    (∃ g ∈ (collectComponents uf n).1, i ∈ g.2 ∧ j ∈ g.2) ↔ uf.rt i = uf.rt j := by
  rw [collectComponents_fst h hn]
  constructor
  · rintro ⟨⟨r, ms⟩, hg, hig, hjg⟩
    have hms := groupFold_mem_val hg
    rw [hms] at hig hjg
    have h1 := (List.mem_filter.mp hig).2
    have h2 := (List.mem_filter.mp hjg).2
    simp only [decide_eq_true_eq] at h1 h2
    rw [h1, h2]
  · intro hij
    refine ⟨(uf.rt i, (List.range n).filter (fun z => decide (uf.rt z = uf.rt i))),
      ?_, ?_, ?_⟩
    · have hl := groupFold_lookup (fun z => uf.rt z) (List.range n) (uf.rt i)
      have hne : lookupGroup (uf.rt i) (groupFold (fun z => uf.rt z) (List.range n)) ≠ [] := by
        rw [hl]
        intro hemp
        have hmem : i ∈ (List.range n).filter (fun z => decide (uf.rt z = uf.rt i)) :=
          List.mem_filter.mpr ⟨List.mem_range.mpr hi, by simp⟩
        rw [hemp] at hmem
        simp at hmem
      have hgm := mem_groupFold_of_lookup_ne_nil hne
      rw [hl] at hgm
      exact hgm
    · exact List.mem_filter.mpr ⟨List.mem_range.mpr hi, by simp⟩
    · exact List.mem_filter.mpr ⟨List.mem_range.mpr hj, by simp [hij]⟩

/-! ## Inversion of the emission pipeline -/

theorem buildTable_eq_some {page : Nat} {pageEls : List PdfElement}
    {allLines : List ClassifiedLine} {vOffset : Nat} {members : List Nat}
    {tableIdx : Nat} {t : DetectedTable}
    (h : buildTable page pageEls allLines vOffset members tableIdx = some t) :
    2 ≤ (compHOf allLines vOffset members).length ∧
    2 ≤ (compVOf allLines vOffset members).length ∧
    2 ≤ (ysOf allLines vOffset members).length ∧
    2 ≤ (xsOf allLines vOffset members).length ∧
    t = { id := tableId page tableIdx, page := page,
          x := (xsOf allLines vOffset members).getD 0 0,
          y := (ysOf allLines vOffset members).getD 0 0,
          width := (xsOf allLines vOffset members).getD
              ((xsOf allLines vOffset members).length - 1) 0 -
            (xsOf allLines vOffset members).getD 0 0,
          height := (ysOf allLines vOffset members).getD
              ((ysOf allLines vOffset members).length - 1) 0 -
            (ysOf allLines vOffset members).getD 0 0,
          rows := (ysOf allLines vOffset members).length - 1,
          cols := (xsOf allLines vOffset members).length - 1,
          cells := assignTexts (pageEls.filter (fun e => decide (isTextEl e)))
            (buildCells (xsOf allLines vOffset members) (ysOf allLines vOffset members)),
          lineIds := (compHOf allLines vOffset members ++
            compVOf allLines vOffset members).map (fun l => l.el.id) } := by
  simp only [buildTable] at h
  by_cases h1 : (compHOf allLines vOffset members).length < 2 ∨
      (compVOf allLines vOffset members).length < 2
  · rw [if_pos h1] at h
    cases h
  · rw [if_neg h1] at h
    by_cases h2 : (ysOf allLines vOffset members).length < 2 ∨
        (xsOf allLines vOffset members).length < 2
    · rw [if_pos h2] at h
      cases h
    · rw [if_neg h2] at h
      push_neg at h1 h2
      exact ⟨h1.1, h1.2, h2.1, h2.2, (Option.some.inj h).symm⟩

theorem emitFold_mem {page : Nat} {pageEls : List PdfElement}
    {allLines : List ClassifiedLine} {vOffset : Nat} :
    ∀ (comps : List (Nat × List Nat)) (acc : List DetectedTable × Nat) {t : DetectedTable},
      t ∈ (comps.foldl (emitStep page pageEls allLines vOffset) acc).1 →
      t ∈ acc.1 ∨
        ∃ g ∈ comps, ∃ idx, buildTable page pageEls allLines vOffset g.2 idx = some t := by
  intro comps
  induction comps with
  | nil =>
    intro acc t ht
    exact Or.inl ht
  | cons c comps ih =>
    intro acc t ht
    rw [List.foldl_cons] at ht
    rcases ih _ ht with h1 | ⟨g, hg, idx, hbt⟩
    · cases hcase : buildTable page pageEls allLines vOffset c.2 acc.2 with
      | none =>
        simp only [emitStep, hcase] at h1
        exact Or.inl h1
      | some t' =>
        simp only [emitStep, hcase] at h1
        rcases List.mem_append.mp h1 with h2 | h2
        · exact Or.inl h2
        · obtain rfl := List.mem_singleton.mp h2
          exact Or.inr ⟨c, List.mem_cons_self _ _, acc.2, hcase⟩
    · exact Or.inr ⟨g, List.mem_cons_of_mem _ hg, idx, hbt⟩

theorem emitFold_struct {page : Nat} {pageEls : List PdfElement}
    {allLines : List ClassifiedLine} {vOffset : Nat} :
    ∀ (comps : List (Nat × List Nat)) (ts0 : List DetectedTable) (k : Nat),
      ∃ new : List DetectedTable,
        comps.foldl (emitStep page pageEls allLines vOffset) (ts0, k) =
          (ts0 ++ new, k + new.length) ∧
        new.map (fun t => t.id) =
          (List.range new.length).map (fun i => tableId page (k + i)) ∧
        (∀ t ∈ new, t.page = page) := by
  intro comps
  induction comps with
  | nil =>
    intro ts0 k
    exact ⟨[], by simp, by simp, by simp⟩
  | cons c comps ih =>
    intro ts0 k
    rw [List.foldl_cons]
    cases hcase : buildTable page pageEls allLines vOffset c.2 k with
    | none =>
      have hstep : emitStep page pageEls allLines vOffset (ts0, k) c = (ts0, k) := by
        simp [emitStep, hcase]
      rw [hstep]
      exact ih ts0 k
    | some t' =>
      have hstep : emitStep page pageEls allLines vOffset (ts0, k) c =
          (ts0 ++ [t'], k + 1) := by
        simp [emitStep, hcase]
      rw [hstep]
      obtain ⟨new, h1, h2, h3⟩ := ih (ts0 ++ [t']) (k + 1)
      obtain ⟨_, _, _, _, hteq⟩ := buildTable_eq_some hcase
      refine ⟨t' :: new, ?_, ?_, ?_⟩
      · rw [h1]
        have e1 : ts0 ++ [t'] ++ new = ts0 ++ t' :: new := by simp
        have e2 : k + 1 + new.length = k + (t' :: new).length := by
          rw [List.length_cons]
          omega
        rw [e1, e2]
      · rw [List.map_cons, h2, List.length_cons, List.range_succ_eq_map,
          List.map_cons, List.map_map]
        congr 1
        · rw [hteq]
          simp
        · apply List.map_congr_left
          intro i _
          have : k + 1 + i = k + (i + 1) := by omega
          simp [Function.comp, this]
      · intro t ht
        rcases List.mem_cons.mp ht with rfl | hmem
        · rw [hteq]
        · exact h3 t hmem

theorem mem_processPage {page : Nat} {pageEls : List PdfElement} {t : DetectedTable}
    (ht : t ∈ processPage page pageEls) :
    2 ≤ (hLinesOf pageEls).length ∧ 2 ≤ (vLinesOf pageEls).length ∧
    ∃ g ∈ (collectComponents
        (applyUnions (UnionFind.ofSize (hLinesOf pageEls ++ vLinesOf pageEls).length)
          (intersectPairs (hLinesOf pageEls) (vLinesOf pageEls)))
        (hLinesOf pageEls ++ vLinesOf pageEls).length).1,
      ∃ idx, buildTable page pageEls (hLinesOf pageEls ++ vLinesOf pageEls)
        (hLinesOf pageEls).length g.2 idx = some t := by
  simp only [processPage] at ht
  by_cases hguard : (hLinesOf pageEls).length < 2 ∨ (vLinesOf pageEls).length < 2
  · rw [if_pos hguard] at ht
    simp at ht
  · rw [if_neg hguard] at ht
    push_neg at hguard
    refine ⟨hguard.1, hguard.2, ?_⟩
    rcases emitFold_mem _ _ ht with h1 | ⟨g, hg, idx, hbt⟩
    · simp at h1
    · exact ⟨g, hg, idx, hbt⟩

theorem processPage_page {page : Nat} {pageEls : List PdfElement} {t : DetectedTable}
    (ht : t ∈ processPage page pageEls) : t.page = page := by
  obtain ⟨_, _, g, _, idx, hbt⟩ := mem_processPage ht
  obtain ⟨_, _, _, _, hteq⟩ := buildTable_eq_some hbt
  rw [hteq]

theorem processPage_ids (page : Nat) (pageEls : List PdfElement) :
    (processPage page pageEls).map (fun t => t.id) =
      (List.range (processPage page pageEls).length).map (fun i => tableId page i) := by
  simp only [processPage]
  by_cases hguard : (hLinesOf pageEls).length < 2 ∨ (vLinesOf pageEls).length < 2
  · rw [if_pos hguard]
    simp
  · rw [if_neg hguard]
    obtain ⟨new, h1, h2, _⟩ := emitFold_struct
      ((collectComponents
        (applyUnions (UnionFind.ofSize (hLinesOf pageEls ++ vLinesOf pageEls).length)
          (intersectPairs (hLinesOf pageEls) (vLinesOf pageEls)))
        (hLinesOf pageEls ++ vLinesOf pageEls).length).1) [] 0
    rw [h1]
    simp only [List.nil_append]
    rw [h2]
    apply List.map_congr_left
    intro i _
    simp

theorem mem_detectTables {els : List PdfElement} {t : DetectedTable}
    (ht : t ∈ detectTables els) :
    ∃ g ∈ groupByPage els, t ∈ processPage g.1 g.2 := by
  rw [detectTables] at ht
  rcases List.mem_flatMap.mp ht with ⟨g, hg, hmem⟩
  exact ⟨g, hg, hmem⟩

/-! ## Classification, congruence, and page-structure helpers -/

theorem matchCell_iff_spec (te : PdfElement) (cell : TableCell) :
    matchCell te cell ↔ specCentroidMatch te cell := by
  unfold matchCell specCentroidMatch
  tauto

theorem classifyLines_append (l1 l2 : List PdfElement) :
    classifyLines (l1 ++ l2) = classifyLines l1 ++ classifyLines l2 := by
  induction l1 with
  | nil => rfl
  | cons el rest ih =>
    simp only [List.cons_append, classifyLines]
    split_ifs <;> simp [ih]

theorem getD_map_range {β : Type} (f : Nat → β) {n i : Nat} (hi : i < n) (d : β) :
    ((List.range n).map f).getD i d = f i := by
  simp [List.getD, List.getElem?_map, List.getElem?_range hi]

theorem buildTable_congr {page : Nat} {pe pe' : List PdfElement}
    (hf : pe.filter (fun e => decide (isTextEl e)) = pe'.filter (fun e => decide (isTextEl e)))
    (allLines : List ClassifiedLine) (vOffset : Nat) (members : List Nat) (tableIdx : Nat) :
    buildTable page pe allLines vOffset members tableIdx =
      buildTable page pe' allLines vOffset members tableIdx := by
  simp only [buildTable, hf]

theorem processPage_congr {page : Nat} {pe pe' : List PdfElement}
    (hcl : classifyLines pe = classifyLines pe')
    (hf : pe.filter (fun e => decide (isTextEl e)) = pe'.filter (fun e => decide (isTextEl e))) :
    processPage page pe = processPage page pe' := by
  have hh : hLinesOf pe = hLinesOf pe' := by rw [hLinesOf, hcl, hLinesOf]
  have hv : vLinesOf pe = vLinesOf pe' := by rw [vLinesOf, hcl, vLinesOf]
  have he : emitStep page pe (hLinesOf pe' ++ vLinesOf pe') (hLinesOf pe').length =
      emitStep page pe' (hLinesOf pe' ++ vLinesOf pe') (hLinesOf pe').length := by
    funext acc g
    simp only [emitStep]
    rw [buildTable_congr hf]
  simp only [processPage, hh, hv, he]

theorem processPage_nil (page : Nat) : processPage page [] = [] := by
  simp [processPage, hLinesOf, vLinesOf, classifyLines]

theorem detectTables_append_inert {els : List PdfElement} {e : PdfElement}
    (hcl : classifyLines [e] = []) (hte : ¬ isTextEl e) :
    detectTables (els ++ [e]) = detectTables els := by
  have hpp : ∀ p vs, processPage p (vs ++ [e]) = processPage p vs := by
    intro p vs
    apply processPage_congr
    · rw [classifyLines_append, hcl, List.append_nil]
    · rw [List.filter_append]
      have hfe : [e].filter (fun x => decide (isTextEl x)) = [] := by
        simp [List.filter, hte]
      rw [hfe, List.append_nil]
  have hpe : processPage e.page [e] = [] := by
    have h0 := hpp e.page []
    rw [List.nil_append] at h0
    rw [h0]
    exact processPage_nil e.page
  rw [detectTables, detectTables]
  have hgroup : groupByPage (els ++ [e]) = groupPush e.page e (groupByPage els) := by
    rw [groupByPage, groupFold, List.foldl_append]
    rfl
  rw [hgroup]
  suffices H : ∀ (G : List (Nat × List PdfElement)),
      (groupPush e.page e G).flatMap (fun g => processPage g.1 g.2) =
        G.flatMap (fun g => processPage g.1 g.2) by
    exact H _
  intro G
  induction G with
  | nil =>
    simp only [groupPush, List.flatMap_cons, List.flatMap_nil, List.append_nil]
    exact hpe
  | cons g rest ih =>
    obtain ⟨k, vs⟩ := g
    by_cases hk : k = e.page
    · simp only [groupPush, if_pos hk, List.flatMap_cons]
      rw [hpp k vs]
    · simp only [groupPush, if_neg hk, List.flatMap_cons, ih]

theorem map_const_of_forall {α β : Type} {l : List α} {f : α → β} {c : β}
    (h : ∀ x ∈ l, f x = c) : l.map f = List.replicate l.length c := by
  induction l with
  | nil => rfl
  | cons x xs ih =>
    rw [List.map_cons, List.length_cons, List.replicate_succ,
      h x (List.mem_cons_self _ _), ih (fun y hy => h y (List.mem_cons_of_mem _ hy))]

theorem flatMap_congr_strong {α β : Type} {l : List α} {f g : α → List β}
    (h : ∀ x ∈ l, f x = g x) : l.flatMap f = l.flatMap g := by
  induction l with
  | nil => rfl
  | cons x xs ih =>
    rw [List.flatMap_cons, List.flatMap_cons, h x (List.mem_cons_self _ _),
      ih (fun y hy => h y (List.mem_cons_of_mem _ hy))]

theorem detectTables_pages (els : List PdfElement) :
    (detectTables els).map (fun t => t.page) =
      (groupByPage els).flatMap (fun g => List.replicate (processPage g.1 g.2).length g.1) := by
  rw [detectTables, List.map_flatMap]
  apply flatMap_congr_strong
  intro g _
  exact map_const_of_forall (fun t ht => processPage_page ht)

theorem flatMap_filter_not_key {p : Nat} :
    ∀ {G : List (Nat × List PdfElement)}, p ∉ G.map Prod.fst →
      (G.flatMap (fun g => processPage g.1 g.2)).filter (fun t => decide (t.page = p)) = [] := by
  intro G
  induction G with
  | nil => intro _; rfl
  | cons g rest ih =>
    intro hp
    rw [List.flatMap_cons, List.filter_append]
    have hg1 : g.1 ≠ p := by
      intro he
      exact hp (List.mem_cons.mpr (Or.inl he.symm))
    have h1 : (processPage g.1 g.2).filter (fun t => decide (t.page = p)) = [] := by
      apply List.filter_eq_nil_iff.mpr
      intro t ht
      simp only [decide_eq_true_eq]
      rw [processPage_page ht]
      exact hg1
    rw [h1, List.nil_append]
    exact ih (fun hm => hp (List.mem_cons_of_mem _ hm))

theorem flatMap_filter_key {p : Nat} {pe : List PdfElement} :
    ∀ {G : List (Nat × List PdfElement)}, (G.map Prod.fst).Nodup → (p, pe) ∈ G →
      (G.flatMap (fun g => processPage g.1 g.2)).filter (fun t => decide (t.page = p)) =
        processPage p pe := by
  intro G
  induction G with
  | nil =>
    intro _ h
    simp at h
  | cons g rest ih =>
    intro hnd hmem
    have hnd2 : (g.1 :: rest.map Prod.fst).Nodup := by
      rw [← List.map_cons]
      exact hnd
    rw [List.flatMap_cons, List.filter_append]
    rcases List.mem_cons.mp hmem with heq | hmem2
    · cases heq.symm
      have h1 : (processPage p pe).filter (fun t => decide (t.page = p)) =
          processPage p pe := by
        apply List.filter_eq_self.mpr
        intro t ht
        simp [processPage_page ht]
      have hnk : p ∉ rest.map Prod.fst := (List.nodup_cons.mp hnd2).1
      rw [h1, flatMap_filter_not_key hnk, List.append_nil]
    · have hg1 : g.1 ≠ p := by
        rintro rfl
        exact (List.nodup_cons.mp hnd2).1 (List.mem_map.mpr ⟨(g.1, pe), hmem2, rfl⟩)
      have h1 : (processPage g.1 g.2).filter (fun t => decide (t.page = p)) = [] := by
        apply List.filter_eq_nil_iff.mpr
        intro t ht
        simp only [decide_eq_true_eq]
        rw [processPage_page ht]
        exact hg1
      rw [h1, List.nil_append]
      exact ih (List.nodup_cons.mp hnd2).2 hmem2

theorem exists_of_mem_keys {κ α : Type} [DecidableEq κ] {G : List (κ × List α)} {p : κ}
    (h : p ∈ G.map Prod.fst) : ∃ vs, (p, vs) ∈ G := by
  rcases List.mem_map.mp h with ⟨g, hg, heq⟩
  exact ⟨g.2, by rw [← heq]; simpa using hg⟩

theorem detect_table_decomp {els : List PdfElement} {t : DetectedTable}
    (ht : t ∈ detectTables els) :
    ∃ page pageEls members idx,
      (page, pageEls) ∈ groupByPage els ∧
      2 ≤ (hLinesOf pageEls).length ∧ 2 ≤ (vLinesOf pageEls).length ∧
      (∃ r, (r, members) ∈ (collectComponents
          (applyUnions (UnionFind.ofSize (hLinesOf pageEls ++ vLinesOf pageEls).length)
            (intersectPairs (hLinesOf pageEls) (vLinesOf pageEls)))
          (hLinesOf pageEls ++ vLinesOf pageEls).length).1) ∧
      buildTable page pageEls (hLinesOf pageEls ++ vLinesOf pageEls)
        (hLinesOf pageEls).length members idx = some t := by
  obtain ⟨⟨page, pageEls⟩, hg, hmem⟩ := mem_detectTables ht
  obtain ⟨hh, hv, g, hgc, idx, hbt⟩ := mem_processPage hmem
  refine ⟨page, pageEls, g.2, idx, hg, hh, hv, ⟨g.1, ?_⟩, hbt⟩
  simpa using hgc

/-! ## Claim theorems -/

/-- C1: for every input primitive list and every emitted table, the
table arises from a connected component of one page whose horizontal and
vertical classified-line counts are at least 2, and whose deduplicated
coordinate sequences have at least 2 entries on each axis; components or
pages failing these thresholds contribute no tables (the emission guards
of `detectTables`). -/
theorem c1_min_grid {els : List PdfElement} {t : DetectedTable}
    (ht : t ∈ detectTables els) :
    ∃ page pageEls members idx,
      (page, pageEls) ∈ groupByPage els ∧
      2 ≤ (hLinesOf pageEls).length ∧ 2 ≤ (vLinesOf pageEls).length ∧
      (∃ r, (r, members) ∈ (collectComponents
          (applyUnions (UnionFind.ofSize (hLinesOf pageEls ++ vLinesOf pageEls).length)
            (intersectPairs (hLinesOf pageEls) (vLinesOf pageEls)))
          (hLinesOf pageEls ++ vLinesOf pageEls).length).1) ∧
      buildTable page pageEls (hLinesOf pageEls ++ vLinesOf pageEls)
        (hLinesOf pageEls).length members idx = some t ∧
      2 ≤ (compHOf (hLinesOf pageEls ++ vLinesOf pageEls) (hLinesOf pageEls).length
        members).length ∧
      2 ≤ (compVOf (hLinesOf pageEls ++ vLinesOf pageEls) (hLinesOf pageEls).length
        members).length ∧
      2 ≤ (ysOf (hLinesOf pageEls ++ vLinesOf pageEls) (hLinesOf pageEls).length
        members).length ∧
      2 ≤ (xsOf (hLinesOf pageEls ++ vLinesOf pageEls) (hLinesOf pageEls).length
        members).length := by
  obtain ⟨page, pageEls, members, idx, hg, hh, hv, hcomp, hbt⟩ := detect_table_decomp ht
  obtain ⟨h1, h2, h3, h4, _⟩ := buildTable_eq_some hbt
  exact ⟨page, pageEls, members, idx, hg, hh, hv, hcomp, hbt, h1, h2, h3, h4⟩

/-- Witness for C1 at Scenario A: its table satisfies all thresholds. -/
theorem c1_min_grid_witness :
    ∃ page pageEls members idx,
      (page, pageEls) ∈ groupByPage scenA ∧
      2 ≤ (hLinesOf pageEls).length ∧ 2 ≤ (vLinesOf pageEls).length ∧
      (∃ r, (r, members) ∈ (collectComponents
          (applyUnions (UnionFind.ofSize (hLinesOf pageEls ++ vLinesOf pageEls).length)
            (intersectPairs (hLinesOf pageEls) (vLinesOf pageEls)))
          (hLinesOf pageEls ++ vLinesOf pageEls).length).1) ∧
      buildTable page pageEls (hLinesOf pageEls ++ vLinesOf pageEls)
        (hLinesOf pageEls).length members idx = some tableA ∧
      2 ≤ (compHOf (hLinesOf pageEls ++ vLinesOf pageEls) (hLinesOf pageEls).length
        members).length ∧
      2 ≤ (compVOf (hLinesOf pageEls ++ vLinesOf pageEls) (hLinesOf pageEls).length
        members).length ∧
      2 ≤ (ysOf (hLinesOf pageEls ++ vLinesOf pageEls) (hLinesOf pageEls).length
        members).length ∧
      2 ≤ (xsOf (hLinesOf pageEls ++ vLinesOf pageEls) (hLinesOf pageEls).length
        members).length :=
  @c1_min_grid scenA tableA (by with_unfolding_all decide)

/-- C3: classifying one element prepends exactly what the spec formula
prescribes: dots (both dimensions below 0.5) are discarded; horizontal
iff `h < 3` or (`w > 5` and `w/h > 4`), with snapped centre position
and x-range; otherwise vertical iff `w < 3` or (`h > 5` and `h/w > 4`),
with snapped centre position and y-range; otherwise discarded; `Text`
primitives are never classified. -/
theorem c3_classification (el : PdfElement) (rest : List PdfElement) :
    classifyLines (el :: rest) = (specClassify el).toList ++ classifyLines rest := by
  simp only [classifyLines, specClassify]
  cases htype : el.type with
  | text => simp
  | line => split_ifs <;> simp_all
  | rect => split_ifs <;> simp_all

/-- C2 counterexample: on Scenario A the code emits one 1x1 table, but
the bounding box is (0, 0, 199.5, 100.5), not (0, 0, 200, 100): the
grid positions 100 and 200 snap to the nearest multiples of 1.5, namely
100.5 and 199.5. -/
theorem c2_scenarioA_counterexample :
    (detectTables scenA).map (fun t => (t.x, t.y, t.width, t.height, t.rows, t.cols)) =
      [(0, 0, 399/2, 201/2, 1, 1)] ∧
    ¬ ((399 : ℚ)/2 = 200 ∧ (201 : ℚ)/2 = 100) := by
  with_unfolding_all decide

/-- C2 amended: on Scenario A, `detectTables` returns exactly one table
with a 1x1 grid and bounding box x=0, y=0, width=199.5, height=100.5
(the snapped coordinates). -/
theorem c2_scenarioA_amended : detectTables scenA = [tableA] := by
  with_unfolding_all decide

/-- C10: on `exBoundary`, the text whose centroid lies on the interior
grid line at x=99 is appended to both adjacent cells of the same table:
its id appears in the `textElementIds` of two distinct cells. -/
theorem c10_boundary_text :
    detectTables exBoundary = [tableB] ∧
    (tableB.cells.map (fun row => row.map (fun c => c.textElementIds)) =
      [[["t1"], ["t1"]]]) := by
  with_unfolding_all decide

theorem final_cells_shape (tes : List PdfElement) (xs ys : List ℚ) :
    assignTexts tes (buildCells xs ys) =
      (List.range (ys.length - 1)).map (fun r =>
        (List.range (xs.length - 1)).map (fun c =>
          tes.foldl cellStep (initCell xs ys r c))) := by
  rw [assignTexts_eq_map, buildCells, List.map_map]
  apply List.map_congr_left
  intro r _
  simp [Function.comp, List.map_map]


/-- C5: for every emitted table, `cells` has exactly `rows` rows, every
row has exactly `cols` cells, the widths along any row sum to the
table's width, and the heights along any column sum to the table's
height (exactly, by telescoping of the grid coordinates). -/
theorem c5_cell_coverage {els : List PdfElement} {t : DetectedTable}
    (ht : t ∈ detectTables els) :
    t.cells.length = t.rows ∧
    (∀ row ∈ t.cells, row.length = t.cols) ∧
    (∀ row ∈ t.cells, (row.map (fun c => c.width)).sum = t.width) ∧
    (∀ c, c < t.cols →
      (t.cells.map (fun row => (row.getD c dummyCell).height)).sum = t.height) := by
  obtain ⟨page, pageEls, ms, idx, hg, hh, hv, hcomp, hbt⟩ := detect_table_decomp ht
  obtain ⟨_, _, hys2, hxs2, hteq⟩ := buildTable_eq_some hbt
  set al := hLinesOf pageEls ++ vLinesOf pageEls with hal
  set off := (hLinesOf pageEls).length with hoff
  set xs := xsOf al off ms with hxs
  set ys := ysOf al off ms with hysdef
  set tes := pageEls.filter (fun e => decide (isTextEl e)) with htes
  have hcells : t.cells = (List.range (ys.length - 1)).map (fun r =>
      (List.range (xs.length - 1)).map (fun c => tes.foldl cellStep (initCell xs ys r c))) := by
    rw [hteq]
    exact final_cells_shape tes xs ys
  have hrows : t.rows = ys.length - 1 := by rw [hteq]
  have hcols : t.cols = xs.length - 1 := by rw [hteq]
  have hwidth : t.width = xs.getD (xs.length - 1) 0 - xs.getD 0 0 := by rw [hteq]
  have hheight : t.height = ys.getD (ys.length - 1) 0 - ys.getD 0 0 := by rw [hteq]
  refine ⟨?_, ?_, ?_, ?_⟩
  · rw [hcells, hrows]
    simp
  · intro row hrow
    rw [hcells] at hrow
    rcases List.mem_map.mp hrow with ⟨r, _, rfl⟩
    rw [hcols]
    simp
  · intro row hrow
    rw [hcells] at hrow
    rcases List.mem_map.mp hrow with ⟨r, _, rfl⟩
    rw [List.map_map]
    have hpt : ∀ c' ∈ List.range (xs.length - 1),
        ((fun c => c.width) ∘ (fun c => tes.foldl cellStep (initCell xs ys r c))) c' =
          xs.getD (c' + 1) 0 - xs.getD c' 0 := by
      intro c' _
      simp only [Function.comp]
      rw [(foldl_cellStep_geom tes (initCell xs ys r c')).2.2.2.2.1]
      simp [initCell]
    rw [List.map_congr_left hpt, hwidth]
    exact sum_range_map_sub (fun i => xs.getD i 0) (xs.length - 1)
  · intro c hc
    rw [hcols] at hc
    rw [hcells, List.map_map]
    have hpt : ∀ r ∈ List.range (ys.length - 1),
        ((fun row => (row.getD c dummyCell).height) ∘
          (fun r => (List.range (xs.length - 1)).map
            (fun c => tes.foldl cellStep (initCell xs ys r c)))) r =
          ys.getD (r + 1) 0 - ys.getD r 0 := by
      intro r _
      simp only [Function.comp]
      rw [getD_map_range _ hc]
      rw [(foldl_cellStep_geom tes (initCell xs ys r c)).2.2.2.2.2]
      simp [initCell]
    rw [List.map_congr_left hpt, hheight]
    exact sum_range_map_sub (fun i => ys.getD i 0) (ys.length - 1)

/-- Witness for C5 at Scenario A. -/
theorem c5_cell_coverage_witness :
    tableA.cells.length = tableA.rows ∧
    (∀ row ∈ tableA.cells, row.length = tableA.cols) ∧
    (∀ row ∈ tableA.cells, (row.map (fun c => c.width)).sum = tableA.width) ∧
    (∀ c, c < tableA.cols →
      (tableA.cells.map (fun row => (row.getD c dummyCell).height)).sum = tableA.height) :=
  @c5_cell_coverage scenA tableA (by with_unfolding_all decide)

theorem matchCell_foldl (te : PdfElement) (tes : List PdfElement) (c : TableCell) :
    matchCell te (tes.foldl cellStep c) ↔ matchCell te c := by
  obtain ⟨_, _, g3, g4, g5, g6⟩ := foldl_cellStep_geom tes c
  unfold matchCell
  rw [g3, g4, g5, g6]

/-- C9: for every emitted table, the deduplicated grid coordinate
sequences are strictly increasing with consecutive gaps above 1.5,
hence every cell's width and height exceed 1.5 and the table's width
and height are strictly positive. -/
theorem c9_grid_gaps {els : List PdfElement} {t : DetectedTable}
    (ht : t ∈ detectTables els) :
    (∀ row ∈ t.cells, ∀ cell ∈ row, 3/2 < cell.width ∧ 3/2 < cell.height) ∧
    0 < t.width ∧ 0 < t.height ∧
    ∃ allLines vOffset members,
      2 ≤ (xsOf allLines vOffset members).length ∧
      2 ≤ (ysOf allLines vOffset members).length ∧
      List.Chain' (fun a b => a + 3/2 < b) (xsOf allLines vOffset members) ∧
      List.Chain' (fun a b => a + 3/2 < b) (ysOf allLines vOffset members) ∧
      t.cols = (xsOf allLines vOffset members).length - 1 ∧
      t.rows = (ysOf allLines vOffset members).length - 1 ∧
      t.x = (xsOf allLines vOffset members).getD 0 0 ∧
      t.y = (ysOf allLines vOffset members).getD 0 0 ∧
      t.width = (xsOf allLines vOffset members).getD
          ((xsOf allLines vOffset members).length - 1) 0 -
        (xsOf allLines vOffset members).getD 0 0 ∧
      t.height = (ysOf allLines vOffset members).getD
          ((ysOf allLines vOffset members).length - 1) 0 -
        (ysOf allLines vOffset members).getD 0 0 := by
  obtain ⟨page, pageEls, ms, idx, hg, hh, hv, hcomp, hbt⟩ := detect_table_decomp ht
  obtain ⟨_, _, hys2, hxs2, hteq⟩ := buildTable_eq_some hbt
  set al := hLinesOf pageEls ++ vLinesOf pageEls with hal
  set off := (hLinesOf pageEls).length with hoff
  set xs := xsOf al off ms with hxsdef
  set ys := ysOf al off ms with hysdef
  set tes := pageEls.filter (fun e => decide (isTextEl e)) with htes
  have hchx : List.Chain' (fun a b => a + 3/2 < b) xs := by
    have hch : List.Chain' (fun a b => a + SNAP < b)
        (dedup (sortRat ((compVOf al off ms).map (fun l => l.pos))) SNAP) :=
      dedup_chain (sortRat_chain ((compVOf al off ms).map (fun l => l.pos)))
    have hsnap : SNAP = 3/2 := rfl
    rw [hxsdef, xsOf]
    rw [hsnap] at hch
    exact hch
  have hchy : List.Chain' (fun a b => a + 3/2 < b) ys := by
    have hch : List.Chain' (fun a b => a + SNAP < b)
        (dedup (sortRat ((compHOf al off ms).map (fun l => l.pos))) SNAP) :=
      dedup_chain (sortRat_chain ((compHOf al off ms).map (fun l => l.pos)))
    have hsnap : SNAP = 3/2 := rfl
    rw [hysdef, ysOf]
    rw [hsnap] at hch
    exact hch
  have hcells : t.cells = (List.range (ys.length - 1)).map (fun r =>
      (List.range (xs.length - 1)).map (fun c => tes.foldl cellStep (initCell xs ys r c))) := by
    rw [hteq]
    exact final_cells_shape tes xs ys
  refine ⟨?_, ?_, ?_, al, off, ms, hxs2, hys2, hchx, hchy, ?_, ?_, ?_, ?_, ?_, ?_⟩
  · intro row hrow cell hcell
    rw [hcells] at hrow
    rcases List.mem_map.mp hrow with ⟨r, hr, rfl⟩
    rcases List.mem_map.mp hcell with ⟨c, hc, rfl⟩
    rw [List.mem_range] at hr hc
    obtain ⟨_, _, _, _, g5, g6⟩ := foldl_cellStep_geom tes (initCell xs ys r c)
    constructor
    · rw [g5]
      have := chain'_getD hchx c (by omega)
      simp only [initCell]
      linarith
    · rw [g6]
      have := chain'_getD hchy r (by omega)
      simp only [initCell]
      linarith
  · have hw : t.width = xs.getD (xs.length - 1) 0 - xs.getD 0 0 := by rw [hteq]
    rw [hw]
    exact sum_pos_of_gaps (by norm_num) hchx hxs2
  · have hw : t.height = ys.getD (ys.length - 1) 0 - ys.getD 0 0 := by rw [hteq]
    rw [hw]
    exact sum_pos_of_gaps (by norm_num) hchy hys2
  · rw [hteq]
  · rw [hteq]
  · rw [hteq]
  · rw [hteq]
  · rw [hteq]
  · rw [hteq]

/-- Witness for C9 at Scenario A. -/
theorem c9_grid_gaps_witness :
    (∀ row ∈ tableA.cells, ∀ cell ∈ row, 3/2 < cell.width ∧ 3/2 < cell.height) ∧
    0 < tableA.width ∧ 0 < tableA.height ∧
    ∃ allLines vOffset members,
      2 ≤ (xsOf allLines vOffset members).length ∧
      2 ≤ (ysOf allLines vOffset members).length ∧
      List.Chain' (fun a b => a + 3/2 < b) (xsOf allLines vOffset members) ∧
      List.Chain' (fun a b => a + 3/2 < b) (ysOf allLines vOffset members) ∧
      tableA.cols = (xsOf allLines vOffset members).length - 1 ∧
      tableA.rows = (ysOf allLines vOffset members).length - 1 ∧
      tableA.x = (xsOf allLines vOffset members).getD 0 0 ∧
      tableA.y = (ysOf allLines vOffset members).getD 0 0 ∧
      tableA.width = (xsOf allLines vOffset members).getD
          ((xsOf allLines vOffset members).length - 1) 0 -
        (xsOf allLines vOffset members).getD 0 0 ∧
      tableA.height = (ysOf allLines vOffset members).getD
          ((ysOf allLines vOffset members).length - 1) 0 -
        (ysOf allLines vOffset members).getD 0 0 :=
  @c9_grid_gaps scenA tableA (by with_unfolding_all decide)

/-- C6: for every emitted table and every cell, the cell's recorded
text-element ids are exactly the ids of the page's non-empty text
primitives whose centroid lies within the cell's rectangle extended by
1 unit on all four sides (with min/max of the y-extent), in the
primitives' original encounter order, and the cell's text is their
contents joined by single spaces.  A text may be recorded in multiple
matching cells independently; a text matching no cell is attached
nowhere. -/
theorem c6_text_assignment {els : List PdfElement} {t : DetectedTable}
    (ht : t ∈ detectTables els) :
    ∃ pageEls, (t.page, pageEls) ∈ groupByPage els ∧
      ∀ row ∈ t.cells, ∀ cell ∈ row,
        cell.textElementIds =
          ((pageEls.filter (fun e => decide (isTextEl e))).filter
            (fun te => decide (specCentroidMatch te cell))).map (fun te => te.id) ∧
        cell.text = joinSpace
          (((pageEls.filter (fun e => decide (isTextEl e))).filter
            (fun te => decide (specCentroidMatch te cell))).map (fun te => te.str.getD "")) := by
  obtain ⟨page, pageEls, ms, idx, hg, hh, hv, hcomp, hbt⟩ := detect_table_decomp ht
  obtain ⟨_, _, hys2, hxs2, hteq⟩ := buildTable_eq_some hbt
  set al := hLinesOf pageEls ++ vLinesOf pageEls with hal
  set off := (hLinesOf pageEls).length with hoff
  set xs := xsOf al off ms with hxsdef
  set ys := ysOf al off ms with hysdef
  set tes := pageEls.filter (fun e => decide (isTextEl e)) with htes
  have hpage : t.page = page := by rw [hteq]
  have hcells : t.cells = (List.range (ys.length - 1)).map (fun r =>
      (List.range (xs.length - 1)).map (fun c => tes.foldl cellStep (initCell xs ys r c))) := by
    rw [hteq]
    exact final_cells_shape tes xs ys
  refine ⟨pageEls, by rw [hpage]; exact hg, ?_⟩
  intro row hrow cell hcell
  rw [hcells] at hrow
  rcases List.mem_map.mp hrow with ⟨r, hr, rfl⟩
  rcases List.mem_map.mp hcell with ⟨c, hc, rfl⟩
  have hfc : tes.filter (fun te => decide (matchCell te (initCell xs ys r c))) =
      tes.filter (fun te =>
        decide (specCentroidMatch te (tes.foldl cellStep (initCell xs ys r c)))) := by
    apply List.filter_congr
    intro te _
    apply decide_eq_decide.mpr
    rw [← matchCell_iff_spec, matchCell_foldl]
  constructor
  · have hids := foldl_cellStep_ids tes (initCell xs ys r c)
    rw [hfc] at hids
    have hinit : (initCell xs ys r c).textElementIds = [] := rfl
    rw [hinit, List.nil_append] at hids
    exact hids
  · have htext := foldl_cellStep_text tes (initCell xs ys r c)
    rw [hfc] at htext
    have hinit : (initCell xs ys r c).text = "" := rfl
    rw [hinit] at htext
    rw [htext]
    apply joinFrom_empty
    intro s hs
    rcases List.mem_map.mp hs with ⟨te, hte, rfl⟩
    have hte2 := (List.mem_filter.mp (List.mem_filter.mp hte).1).2
    simp only [decide_eq_true_eq] at hte2
    exact hte2.2

/-- Witness for C6 at the boundary-text input. -/
theorem c6_text_assignment_witness :
    ∃ pageEls, (tableB.page, pageEls) ∈ groupByPage exBoundary ∧
      ∀ row ∈ tableB.cells, ∀ cell ∈ row,
        cell.textElementIds =
          ((pageEls.filter (fun e => decide (isTextEl e))).filter
            (fun te => decide (specCentroidMatch te cell))).map (fun te => te.id) ∧
        cell.text = joinSpace
          (((pageEls.filter (fun e => decide (isTextEl e))).filter
            (fun te => decide (specCentroidMatch te cell))).map (fun te => te.str.getD "")) :=
  @c6_text_assignment exBoundary tableB (by with_unfolding_all decide)

theorem eqvGen_or_eq {α : Type} {S : α → α → Prop} {x y : α} :
    Relation.EqvGen (fun u v => u = v ∨ S u v) x y ↔ Relation.EqvGen S x y := by
  constructor
  · apply eqvGen_mono_strong
    intro u v huv
    rcases huv with rfl | h
    · exact Relation.EqvGen.refl u
    · exact Relation.EqvGen.rel u v h
  · apply eqvGen_mono_strong
    intro u v h
    exact Relation.EqvGen.rel u v (Or.inr h)

/-- C4: on each page, a horizontal line `hi` and a vertical line `vi`
are unioned in the disjoint-set if and only if the vertical line's
position lies within `[h.start - 3, h.end + 3]` and the horizontal
line's position lies within `[min(v.start, v.end) - 3,
max(v.start, v.end) + 3]`; and two flat line indices end up in the
same collected component exactly when they are connected by the
equivalence closure of that relation. -/
theorem c4_components (hls vls : List ClassifiedLine) :
    (∀ hi vi, hi < hls.length → vi < vls.length →
      (interRel hls vls hi (hls.length + vi) ↔
        ((hls.getD hi noLine).start - 3 ≤ (vls.getD vi noLine).pos ∧
         (vls.getD vi noLine).pos ≤ (hls.getD hi noLine).stop + 3 ∧
         min (vls.getD vi noLine).start (vls.getD vi noLine).stop - 3 ≤
           (hls.getD hi noLine).pos ∧
         (hls.getD hi noLine).pos ≤
           max (vls.getD vi noLine).start (vls.getD vi noLine).stop + 3))) ∧
    (∀ i j, i < (hls ++ vls).length → j < (hls ++ vls).length →
      ((∃ g ∈ (collectComponents
          (applyUnions (UnionFind.ofSize (hls ++ vls).length) (intersectPairs hls vls))
          (hls ++ vls).length).1, i ∈ g.2 ∧ j ∈ g.2) ↔
        Relation.EqvGen (interRel hls vls) i j)) := by
  constructor
  · intro hi vi hhi hvi
    rw [interRel, mem_intersectPairs_iff hhi hvi]
    unfold intersects INTERSECT_TOL
    tauto
  · intro i j hi hj
    have hlen0 : (UnionFind.ofSize (hls ++ vls).length).parent.length =
        (hls ++ vls).length := by
      simp [UnionFind.ofSize]
    have hrange : ∀ q ∈ intersectPairs hls vls,
        q.1 < (UnionFind.ofSize (hls ++ vls).length).parent.length ∧
        q.2 < (UnionFind.ofSize (hls ++ vls).length).parent.length := by
      intro q hq
      have := mem_intersectPairs_range hq
      rw [hlen0, List.length_append]
      exact this
    obtain ⟨hinv, hlen, hiff⟩ :=
      applyUnions_spec (intersectPairs hls vls) (UnionFind.ofSize (hls ++ vls).length)
        (ofSize_inv _) hrange
    have hn : (hls ++ vls).length =
        (applyUnions (UnionFind.ofSize (hls ++ vls).length)
          (intersectPairs hls vls)).parent.length := by
      rw [hlen, hlen0]
    rw [mem_component_iff hinv hn hi hj, hiff i j]
    have hbase : (fun u v => (UnionFind.ofSize (hls ++ vls).length).rt u =
        (UnionFind.ofSize (hls ++ vls).length).rt v ∨ (u, v) ∈ intersectPairs hls vls) =
        (fun u v => u = v ∨ interRel hls vls u v) := by
      funext u v
      rw [ofSize_rt, ofSize_rt, interRel]
    rw [hbase, eqvGen_or_eq]

/-- Witness for C4 at Scenario A's classified lines: the first
horizontal line (index 0) and the first vertical line (index 2) land in
the same component, by the intersection relation. -/
theorem c4_components_witness :
    ∃ g ∈ (collectComponents
        (applyUnions
          (UnionFind.ofSize (hLinesOf scenA ++ vLinesOf scenA).length)
          (intersectPairs (hLinesOf scenA) (vLinesOf scenA)))
        (hLinesOf scenA ++ vLinesOf scenA).length).1, 0 ∈ g.2 ∧ 2 ∈ g.2 :=
  ((c4_components (hLinesOf scenA) (vLinesOf scenA)).2 0 2
    (by with_unfolding_all decide) (by with_unfolding_all decide)).mpr
    (Relation.EqvGen.rel 0 2 (by with_unfolding_all decide))

/-- C7 counterexample: on `exPages` (page 2's grid listed before page
1's), the output pages come out in first-appearance order [2, 1], which
is not ascending: the claim that output is ordered by ascending page
number regardless of input order is false. -/
theorem c7_order_counterexample :
    (detectTables exPages).map (fun t => t.page) = [2, 1] ∧ ¬ (2 : Nat) ≤ 1 := by
  with_unfolding_all decide

/-- C7 amended: the output list is grouped by page in order of each
page's first appearance in the input (JavaScript `Map` insertion
order), not by ascending page number; within each page the ids are
`table-p{page}-{index}` with index starting at 0 per page. -/
theorem c7_order_amended (els : List PdfElement) :
    (detectTables els).map (fun t => t.page) =
      (firstAppearances (els.map (fun e => e.page))).flatMap
        (fun p => List.replicate
          ((detectTables els).countP (fun t => decide (t.page = p))) p) ∧
    ∀ p : Nat, ((detectTables els).filter (fun t => decide (t.page = p))).map
        (fun t => t.id) =
      (List.range ((detectTables els).countP (fun t => decide (t.page = p)))).map
        (fun i => tableId p i) := by
  have hkeys : (groupByPage els).map Prod.fst = firstAppearances (els.map (fun e => e.page)) :=
    groupFold_keys (fun e => e.page) els
  have hnd : ((groupByPage els).map Prod.fst).Nodup := groupFold_keys_nodup _ _
  have hflat : detectTables els = (groupByPage els).flatMap (fun g => processPage g.1 g.2) := rfl
  constructor
  · rw [detectTables_pages els, ← hkeys]
    have hmapflat : ((groupByPage els).map Prod.fst).flatMap
        (fun p => List.replicate
          ((detectTables els).countP (fun t => decide (t.page = p))) p) =
        (groupByPage els).flatMap (fun g => List.replicate
          ((detectTables els).countP (fun t => decide (t.page = g.1))) g.1) := by
      rw [List.flatMap_map]
    rw [hmapflat]
    apply flatMap_congr_strong
    intro g hg
    congr 1
    have hcnt : (detectTables els).countP (fun t => decide (t.page = g.1)) =
        ((detectTables els).filter (fun t => decide (t.page = g.1))).length := by
      rw [List.countP_eq_length_filter]
    rw [hcnt, hflat, flatMap_filter_key hnd (by simpa using hg)]
  · intro p
    have hcnt : (detectTables els).countP (fun t => decide (t.page = p)) =
        ((detectTables els).filter (fun t => decide (t.page = p))).length := by
      rw [List.countP_eq_length_filter]
    by_cases hp : p ∈ (groupByPage els).map Prod.fst
    · obtain ⟨pe, hpe⟩ := exists_of_mem_keys hp
      have hfil : (detectTables els).filter (fun t => decide (t.page = p)) =
          processPage p pe := by
        rw [hflat]
        exact flatMap_filter_key hnd hpe
      rw [hcnt, hfil]
      exact processPage_ids p pe
    · have hfil : (detectTables els).filter (fun t => decide (t.page = p)) = [] := by
        rw [hflat]
        exact flatMap_filter_not_key hp
      rw [hcnt, hfil]
      rfl

/-- C8: the detector is total and handles degenerate input by omission:
appending a zero-area line/rect dot or an empty-content text to any
input leaves the output unchanged, and a page whose classified lines
fail the minimum thresholds contributes no tables (the embedding is a
total Lean function, so no input can raise an error). -/
theorem c8_totality (els : List PdfElement) (e : PdfElement) (p : Nat) :
    ((e.type = ElementType.line ∨ e.type = ElementType.rect) →
      |e.width| < 1/2 → |e.height| < 1/2 →
      detectTables (els ++ [e]) = detectTables els) ∧
    (e.type = ElementType.text → e.str.getD "" = "" →
      detectTables (els ++ [e]) = detectTables els) ∧
    (((hLinesOf (els.filter (fun x => decide (x.page = p)))).length < 2 ∨
      (vLinesOf (els.filter (fun x => decide (x.page = p)))).length < 2) →
      (detectTables els).countP (fun t => decide (t.page = p)) = 0) := by
  refine ⟨?_, ?_, ?_⟩
  · intro htype hw hh
    apply detectTables_append_inert
    · simp only [classifyLines]
      rw [if_pos htype, if_pos ⟨hw, hh⟩]
    · intro hte
      rcases htype with h1 | h1 <;> rw [hte.1] at h1 <;> cases h1
  · intro htype hstr
    apply detectTables_append_inert
    · simp only [classifyLines]
      have hcond : ¬(e.type = ElementType.line ∨ e.type = ElementType.rect) := by
        rw [htype]
        rintro (h1 | h1) <;> cases h1
      rw [if_neg hcond]
    · intro hte
      exact hte.2 hstr
  · intro hguard
    have hnd : ((groupByPage els).map Prod.fst).Nodup := groupFold_keys_nodup _ _
    have hflat : detectTables els = (groupByPage els).flatMap (fun g => processPage g.1 g.2) :=
      rfl
    rw [List.countP_eq_length_filter]
    by_cases hp : p ∈ (groupByPage els).map Prod.fst
    · obtain ⟨pe, hpe⟩ := exists_of_mem_keys hp
      have hval : pe = els.filter (fun x => decide (x.page = p)) := groupFold_mem_val hpe
      have hempty : processPage p pe = [] := by
        simp only [processPage]
        rw [if_pos (by rw [hval]; exact hguard)]
      rw [hflat, flatMap_filter_key hnd hpe, hempty]
      rfl
    · rw [hflat, flatMap_filter_not_key hp]
      rfl

/-- Witness for C8: a dot and an empty text appended to Scenario A
leave the output unchanged, and the degenerate page 5 of `exStray`
contributes no tables. -/
theorem c8_totality_witness :
    detectTables (scenA ++ [dotEl]) = detectTables scenA ∧
    detectTables (scenA ++ [emptyTextEl]) = detectTables scenA ∧
    (detectTables exStray).countP (fun t => decide (t.page = 5)) = 0 :=
  ⟨(c8_totality scenA dotEl 5).1 (by decide) (by with_unfolding_all decide)
      (by with_unfolding_all decide),
   (c8_totality scenA emptyTextEl 5).2.1 (by decide) (by decide),
   (c8_totality exStray emptyTextEl 5).2.2 (by with_unfolding_all decide)⟩
